import Mathlib

/-
Verification of the reactivity core and reconciler of this repository
(a Vue-3 style reactive framework).  Each section shallowly embeds the
relevant TypeScript functions as executable Lean definitions, translated
from the source files, and proves the specified properties about them.
-/

set_option maxHeartbeats 1000000
set_option maxRecDepth 10000

/- ----------------------------------------------------------------- -/
/- Section: computed refs (packages/reactivity/src/computed.ts,      -/
/- class ComputedRefImpl).                                           -/
/- ----------------------------------------------------------------- -/

namespace ComputedModel

/--
State of one `ComputedRefImpl` together with the single reactive
dependency its getter reads.  `dirty` is the private `_dirty` flag
(initialized to `true`), `cache` is `_value`, `depVal` is the current
value of the reactive source the user getter reads, `getterRuns` counts
invocations of `effect.run()` (each of which executes the user getter
exactly once), and `notifies` counts the `triggerRefValue` calls issued
by the effect scheduler.
-/
structure CState where
  dirty : Bool
  cache : Nat
  depVal : Nat
  getterRuns : Nat
  notifies : Nat
deriving DecidableEq, Repr

/-- Initial state of a freshly constructed computed: `_dirty = true`,
the cache slot unset (modelled as 0), no getter runs, no notifications. -/
def initC (d0 : Nat) : CState :=
  { dirty := true, cache := 0, depVal := d0, getterRuns := 0, notifies := 0 }

/--
The `value` getter of `ComputedRefImpl`: `trackRefValue(self)`; then
`if (self._dirty) { self._dirty = false; self._value = self.effect.run() }`;
finally `return self._value`.  The user getter is `g` applied to the
current dependency value.
-/
def readValue (g : Nat → Nat) (st : CState) : Nat × CState :=
  if st.dirty then
    let v := g st.depVal
    (v, { st with dirty := false, cache := v, getterRuns := st.getterRuns + 1 })
  else
    (st.cache, st)

/--
The scheduler installed by the `ComputedRefImpl` constructor:
`if (!this._dirty) { this._dirty = true; triggerRefValue(this) }`.
It runs when the dependency's Dep fires after a mutation; we bundle the
dependency-value update with it.
-/
def depChange (newDep : Nat) (st : CState) : CState :=
  let st1 := { st with depVal := newDep }
  if !st1.dirty then
    { st1 with dirty := true, notifies := st1.notifies + 1 }
  else
    st1

/-- Events observable on a computed: a read of `.value`, or a mutation of
the dependency (which invokes the computed effect's scheduler). -/
inductive CEvent
  | read
  | dep (n : Nat)
deriving DecidableEq, Repr

/-- Run one event against the state, discarding read results. -/
def stepC (g : Nat → Nat) (st : CState) (e : CEvent) : CState :=
  match e with
  | .read => (readValue g st).2
  | .dep n => depChange n st

/-- Run a trace of events. -/
def runTrace (g : Nat → Nat) (st : CState) (tr : List CEvent) : CState :=
  tr.foldl (stepC g) st

lemma read_clean (g : Nat → Nat) (st : CState) (h : st.dirty = false) :
    readValue g st = (st.cache, st) := by
  simp [readValue, h]

lemma read_not_dirty_after (g : Nat → Nat) (st : CState) :
    ((readValue g st).2).dirty = false := by
  unfold readValue
  cases h : st.dirty <;> simp [h]

lemma runs_after_reads (g : Nat → Nat) (st : CState) (n : Nat) :
    (runTrace g st (List.replicate (n + 1) .read)).getterRuns
      = (readValue g st).2.getterRuns := by
  induction n generalizing st with
  | zero => simp [runTrace, stepC]
  | succ k ih =>
    have hrep : List.replicate (k + 1 + 1) CEvent.read
        = CEvent.read :: List.replicate (k + 1) CEvent.read := rfl
    rw [hrep]
    show (runTrace g (stepC g st .read) (List.replicate (k + 1) .read)).getterRuns = _
    rw [ih]
    have hclean : ((readValue g st).2).dirty = false := read_not_dirty_after g st
    show (readValue g (readValue g st).2).2.getterRuns = _
    rw [read_clean g _ hclean]

lemma depChange_runs (d : Nat) (st : CState) :
    (depChange d st).getterRuns = st.getterRuns := by
  unfold depChange
  cases h : st.dirty <;> simp [h]

lemma depChange_dirty (d : Nat) (st : CState) :
    (depChange d st).dirty = true := by
  unfold depChange
  cases h : st.dirty <;> simp [h]

lemma runTrace_dep_runs (g : Nat → Nat) (st : CState) (ds : List Nat) :
    (runTrace g st (ds.map CEvent.dep)).getterRuns = st.getterRuns := by
  induction ds generalizing st with
  | nil => rfl
  | cons d tl ih =>
    show (runTrace g (depChange d st) (tl.map CEvent.dep)).getterRuns = _
    rw [ih, depChange_runs]

/--
Claim C3 (computed laziness and caching).  For every computed:
(1) the user getter is never invoked before the first read of `.value`
    (any sequence of pure dependency changes leaves the run count at 0);
(2) any number of consecutive reads with no intervening dependency
    change invokes the getter exactly once when the computed is dirty
    and zero times when it is clean, and consecutive reads return the
    cached value;
(3) after a dependency change, the getter is invoked again exactly once
    no matter how many reads follow;
(4) the scheduler notifies downstream subscribers by marking the
    computed dirty and firing `triggerRefValue`, never by eagerly
    re-running the getter.
-/
theorem computed_lazy_caching (g : Nat → Nat) (d0 : Nat) :
    (∀ ds : List Nat,
       (runTrace g (initC d0) (ds.map CEvent.dep)).getterRuns = 0) ∧
    (∀ (st : CState) (n : Nat),
       (runTrace g st (List.replicate (n + 1) CEvent.read)).getterRuns
         = st.getterRuns + (if st.dirty then 1 else 0)) ∧
    (∀ st : CState, st.dirty = false →
       (readValue g st).1 = st.cache) ∧
    (∀ (st : CState) (d n : Nat),
       (runTrace g (depChange d st) (List.replicate (n + 1) CEvent.read)).getterRuns
         = st.getterRuns + 1) ∧
    (∀ (st : CState) (d : Nat),
       (depChange d st).getterRuns = st.getterRuns ∧
       (depChange d st).dirty = true ∧
       (st.dirty = false → (depChange d st).notifies = st.notifies + 1)) := by
  refine ⟨?_, ?_, ?_, ?_, ?_⟩
  · intro ds
    rw [runTrace_dep_runs]
    rfl
  · intro st n
    rw [runs_after_reads]
    unfold readValue
    cases h : st.dirty <;> simp [h]
  · intro st h
    simp [readValue, h]
  · intro st d n
    rw [runs_after_reads]
    have h1 : (depChange d st).dirty = true := depChange_dirty d st
    have h2 : (depChange d st).getterRuns = st.getterRuns := depChange_runs d st
    unfold readValue
    simp [h1, h2]
  · intro st d
    refine ⟨depChange_runs d st, depChange_dirty d st, ?_⟩
    intro h
    simp [depChange, h]

/-- Witness for C3 at a concrete computed: dependency initially 3, getter
is the successor function; two consecutive reads from the initial state
run the getter exactly once, and a dependency change followed by two
reads runs it exactly once more. -/
theorem computed_lazy_caching_witness :
    (runTrace Nat.succ (initC 3) (List.replicate 2 CEvent.read)).getterRuns = 1 ∧
    (runTrace Nat.succ (depChange 5 (initC 3)) (List.replicate 2 CEvent.read)).getterRuns = 1 ∧
    (readValue Nat.succ { dirty := false, cache := 4, depVal := 3,
                          getterRuns := 1, notifies := 0 }).1 = 4 := by
  refine ⟨?_, ?_, ?_⟩
  · have h := (computed_lazy_caching Nat.succ 3).2.1 (initC 3) 1
    simpa [initC] using h
  · have h := (computed_lazy_caching Nat.succ 3).2.2.2.1 (initC 3) 5 1
    simpa [initC] using h
  · exact (computed_lazy_caching Nat.succ 3).2.2.1 _ rfl

end ComputedModel

/- ----------------------------------------------------------------- -/
/- Section: dependency markers (packages/reactivity/src/dep.ts and   -/
/- ReactiveEffect.run / trackEffects in effect.ts), specialised to   -/
/- one effect observing two reactive slots `a` and `b`.              -/
/- ----------------------------------------------------------------- -/

namespace DepModel

/-- The two reactive slots the effect under study may read. -/
inductive Slot
  | a
  | b
deriving DecidableEq, Repr, Fintype

/-- One Dep from dep.ts, restricted to the single effect under study:
`hasE` records whether the effect is a member of the Dep set, and
`w` / `n` are the `wasTracked` / `newTracked` bit fields. -/
structure DepS where
  hasE : Bool
  w : Nat
  n : Nat
deriving DecidableEq, Repr

/-- The effect together with the Deps of both slots and its own
`deps` back-pointer array. -/
structure EffS where
  depA : DepS
  depB : DepS
  deps : List Slot
deriving DecidableEq, Repr

def getDep (st : EffS) : Slot → DepS
  | .a => st.depA
  | .b => st.depB

def setDep (st : EffS) : Slot → DepS → EffS
  | .a, d => { st with depA := d }
  | .b, d => { st with depB := d }

/-- The value of `trackOpBit` during a depth-1 effect run:
`trackOpBit = 1 << ++effectTrackDepth` with `effectTrackDepth` going
from 0 to 1. -/
def trackOpBit : Nat := 2

/-- From dep.ts: `(dep.w & trackOpBit) > 0`. -/
def wasTracked (d : DepS) : Bool := decide (0 < d.w &&& trackOpBit)

/-- From dep.ts: `(dep.n & trackOpBit) > 0`. -/
def newTracked (d : DepS) : Bool := decide (0 < d.n &&& trackOpBit)

/-- From dep.ts `initDepMarkers`: `deps[i].w |= trackOpBit` for every
Dep currently held by the effect. -/
def initDepMarkers (st : EffS) : EffS :=
  st.deps.foldl
    (fun s sl => setDep s sl { getDep s sl with w := (getDep s sl).w ||| trackOpBit })
    st

/-- From effect.ts `trackEffects`, depth within `maxMarkerBits`:
if the Dep is not yet newly tracked, set its `n` bit and subscribe the
effect (adding the two-way edge) exactly when the Dep was not already
tracked in the previous run. -/
def trackEffects (st : EffS) (sl : Slot) : EffS :=
  let d := getDep st sl
  if !newTracked d then
    let d1 := { d with n := d.n ||| trackOpBit }
    let st1 := setDep st sl d1
    if !wasTracked d1 then
      let st2 := setDep st1 sl { d1 with hasE := true }
      { st2 with deps := st2.deps ++ [sl] }
    else st1
  else st

/-- The JS 32-bit operation `x &= ~trackOpBit` used by
`finalizeDepMarkers` to clear this generation's marker bit. -/
def clearOpBit (x : Nat) : Nat := x &&& (0xFFFFFFFF ^^^ trackOpBit)

/-- One iteration of the loop in dep.ts `finalizeDepMarkers`: a Dep that
was tracked in a previous generation but not re-confirmed this run drops
the effect; otherwise it is kept in the compacted `deps` array.  Either
way both marker bits of this generation are cleared. -/
def finalizeStep (acc : EffS × List Slot) (sl : Slot) : EffS × List Slot :=
  let st := acc.1
  let kept := acc.2
  let d := getDep st sl
  let res :=
    if wasTracked d && !newTracked d then
      (setDep st sl { d with hasE := false }, kept)
    else
      (st, kept ++ [sl])
  let d1 := getDep res.1 sl
  (setDep res.1 sl { d1 with w := clearOpBit d1.w, n := clearOpBit d1.n }, res.2)

/-- From dep.ts `finalizeDepMarkers`: iterate the effect's Dep array,
prune stale edges, clear the marker bits and compact the array. -/
def finalizeDepMarkers (st : EffS) : EffS :=
  let r := st.deps.foldl finalizeStep (st, [])
  { r.1 with deps := r.2 }

/-- One depth-1 `ReactiveEffect.run()`: `initDepMarkers`, then the
wrapped function performs `track` for each slot it reads (in order),
then `finalizeDepMarkers` in the `finally` block. -/
def runEffect (st : EffS) (reads : List Slot) : EffS :=
  finalizeDepMarkers (reads.foldl trackEffects (initDepMarkers st))

/-- Whether a `trigger` on the given slot re-runs the effect: `trigger`
looks up the Dep for the key and `triggerEffects` runs every member. -/
def triggerHits (st : EffS) (sl : Slot) : Bool := (getDep st sl).hasE

/-- A state between top-level runs: all depth-1 marker bits clear, the
`deps` array duplicate-free, and the two-way edges consistent (the
effect is in a Dep's set exactly when that Dep is in its array). -/
def Clean (st : EffS) : Prop :=
  st.depA.w = 0 ∧ st.depA.n = 0 ∧ st.depB.w = 0 ∧ st.depB.n = 0 ∧
  st.deps.Nodup ∧
  (st.depA.hasE = true ↔ Slot.a ∈ st.deps) ∧
  (st.depB.hasE = true ↔ Slot.b ∈ st.deps)

lemma foldl_track_fix (st1 : EffS) (sl : Slot) (h : trackEffects st1 sl = st1) :
    ∀ tl : List Slot, (∀ x ∈ tl, x = sl) → tl.foldl trackEffects st1 = st1 := by
  intro tl
  induction tl with
  | nil => intro _; rfl
  | cons x xs ih =>
    intro hall
    have hx : x = sl := hall x (List.mem_cons_self x xs)
    subst hx
    show (xs.foldl trackEffects (trackEffects st1 x)) = st1
    rw [h]
    exact ih (fun y hy => hall y (List.mem_cons_of_mem x hy))

lemma foldl_track_collapse (st0 : EffS) (sl : Slot)
    (h : trackEffects (trackEffects st0 sl) sl = trackEffects st0 sl) :
    ∀ reads : List Slot, (∀ x ∈ reads, x = sl) → reads ≠ [] →
      reads.foldl trackEffects st0 = trackEffects st0 sl := by
  intro reads hall hne
  cases reads with
  | nil => exact absurd rfl hne
  | cons x xs =>
    have hx : x = sl := hall x (List.mem_cons_self x xs)
    subst hx
    show xs.foldl trackEffects (trackEffects st0 x) = trackEffects st0 x
    exact foldl_track_fix _ x h xs (fun y hy => hall y (List.mem_cons_of_mem x hy))

lemma slot_not_b (x : Slot) (h : x ≠ Slot.b) : x = Slot.a := by
  cases x
  · rfl
  · exact absurd rfl h

lemma slot_not_a (x : Slot) (h : x ≠ Slot.a) : x = Slot.b := by
  cases x
  · exact absurd rfl h
  · rfl

lemma clean_deps_shapes (l : List Slot) (h : l.Nodup) :
    l = [] ∨ l = [Slot.a] ∨ l = [Slot.b] ∨ l = [Slot.a, Slot.b] ∨ l = [Slot.b, Slot.a] := by
  match l, h with
  | [], _ => exact Or.inl rfl
  | [x], _ => cases x
              · exact Or.inr (Or.inl rfl)
              · exact Or.inr (Or.inr (Or.inl rfl))
  | [x, y], h =>
      have hxy : x ≠ y := by
        intro he
        subst he
        simp at h
      cases x <;> cases y
      · exact absurd rfl hxy
      · exact Or.inr (Or.inr (Or.inr (Or.inl rfl)))
      · exact Or.inr (Or.inr (Or.inr (Or.inr rfl)))
      · exact absurd rfl hxy
  | x :: y :: z :: tl, h =>
      exfalso
      have hcard : Fintype.card Slot = 2 := rfl
      have hlen := List.Nodup.length_le_card h
      rw [hcard] at hlen
      simp at hlen

lemma run_only (st : EffS) (sl : Slot) (reads : List Slot)
    (hall : ∀ x ∈ reads, x = sl) (hne : reads ≠ [])
    (hid : trackEffects (trackEffects (initDepMarkers st) sl) sl
             = trackEffects (initDepMarkers st) sl) :
    runEffect st reads = finalizeDepMarkers (trackEffects (initDepMarkers st) sl) := by
  unfold runEffect
  rw [foldl_track_collapse _ _ hid reads hall hne]

/--
Claim C1 (conditional dependency pruning).  Starting from any
well-formed inter-run state: after a run whose function reads slot `a`
(any positive number of times) and never reads `b`, triggering `b` does
not re-run the effect while triggering `a` does, and the effect's `deps`
array is compacted to exactly the Dep of `a`; after a subsequent run
that reads `b` and no longer reads `a`, triggering `b` re-runs the
effect and triggering `a` no longer does — the stale edge to `a` is
removed when the run finalizes.
-/
theorem conditional_dep_pruning (st : EffS) (hclean : Clean st)
    (reads1 reads2 : List Slot)
    (h1a : Slot.a ∈ reads1) (h1b : Slot.b ∉ reads1)
    (h2b : Slot.b ∈ reads2) (h2a : Slot.a ∉ reads2) :
    triggerHits (runEffect st reads1) Slot.b = false ∧
    triggerHits (runEffect st reads1) Slot.a = true ∧
    (runEffect st reads1).deps = [Slot.a] ∧
    triggerHits (runEffect (runEffect st reads1) reads2) Slot.b = true ∧
    triggerHits (runEffect (runEffect st reads1) reads2) Slot.a = false ∧
    (runEffect (runEffect st reads1) reads2).deps = [Slot.b] := by
  have hall1 : ∀ x ∈ reads1, x = Slot.a :=
    fun x hx => slot_not_b x (fun he => h1b (he ▸ hx))
  have hne1 : reads1 ≠ [] := by
    intro h
    subst h
    exact absurd h1a (List.not_mem_nil _)
  have hall2 : ∀ x ∈ reads2, x = Slot.b :=
    fun x hx => slot_not_a x (fun he => h2a (he ▸ hx))
  have hne2 : reads2 ≠ [] := by
    intro h
    subst h
    exact absurd h2b (List.not_mem_nil _)
  obtain ⟨hwA, hnA, hwB, hnB, hnd, hiffA, hiffB⟩ := hclean
  rcases st with ⟨⟨hA, wA, nA⟩, ⟨hB, wB, nB⟩, depsl⟩
  simp only at hwA hnA hwB hnB hnd hiffA hiffB
  subst hwA hnA hwB hnB
  rcases clean_deps_shapes depsl hnd with h | h | h | h | h <;> subst h <;>
      (first
        | (have eA : hA = false := by
             cases hA
             · rfl
             · exact absurd (hiffA.mp rfl) (by decide)
           have eB : hB = false := by
             cases hB
             · rfl
             · exact absurd (hiffB.mp rfl) (by decide)
           subst eA eB
           rw [run_only _ Slot.a reads1 hall1 hne1 (by decide)]
           rw [run_only _ Slot.b reads2 hall2 hne2 (by decide)]
           decide)
        | (have eA : hA = false := by
             cases hA
             · rfl
             · exact absurd (hiffA.mp rfl) (by decide)
           have eB : hB = true := hiffB.mpr (by decide)
           subst eA eB
           rw [run_only _ Slot.a reads1 hall1 hne1 (by decide)]
           rw [run_only _ Slot.b reads2 hall2 hne2 (by decide)]
           decide)
        | (have eA : hA = true := hiffA.mpr (by decide)
           have eB : hB = false := by
             cases hB
             · rfl
             · exact absurd (hiffB.mp rfl) (by decide)
           subst eA eB
           rw [run_only _ Slot.a reads1 hall1 hne1 (by decide)]
           rw [run_only _ Slot.b reads2 hall2 hne2 (by decide)]
           decide)
        | (have eA : hA = true := hiffA.mpr (by decide)
           have eB : hB = true := hiffB.mpr (by decide)
           subst eA eB
           rw [run_only _ Slot.a reads1 hall1 hne1 (by decide)]
           rw [run_only _ Slot.b reads2 hall2 hne2 (by decide)]
           decide))

/-- Witness for C1: the empty clean effect, a first run reading `[a]`,
a second run reading `[b]`. -/
theorem conditional_dep_pruning_witness :
    Clean ⟨⟨false, 0, 0⟩, ⟨false, 0, 0⟩, []⟩ ∧
    triggerHits (runEffect ⟨⟨false, 0, 0⟩, ⟨false, 0, 0⟩, []⟩ [Slot.a]) Slot.b = false ∧
    triggerHits
      (runEffect (runEffect ⟨⟨false, 0, 0⟩, ⟨false, 0, 0⟩, []⟩ [Slot.a]) [Slot.b])
      Slot.a = false := by
  have hc : Clean ⟨⟨false, 0, 0⟩, ⟨false, 0, 0⟩, []⟩ := by
    constructor
    · rfl
    refine ⟨rfl, rfl, rfl, List.nodup_nil, by simp, by simp⟩
  have h := conditional_dep_pruning ⟨⟨false, 0, 0⟩, ⟨false, 0, 0⟩, []⟩ hc
      [Slot.a] [Slot.b] (by decide) (by decide) (by decide) (by decide)
  exact ⟨hc, h.1, h.2.2.2.2.1⟩

end DepModel

/- ----------------------------------------------------------------- -/
/- Section: trigger dispatch (effect.ts, functions trigger lines     -/
/- 835-859 and triggerEffects).                                      -/
/- ----------------------------------------------------------------- -/

namespace TriggerModel

/-- A ReactiveEffect as far as dispatch is concerned: its identity, and
whether it carries a scheduler / allows self-recursion. -/
structure Eff where
  eid : Nat
  hasSched : Bool
  allowRecurse : Bool
deriving DecidableEq, Repr

/-- A Dep is a JS `Set` of effects: a duplicate-free list in insertion
order. -/
abbrev Dep := List Eff

/-- A dispatch performed by `triggerEffects`: either the effect's
scheduler is called, or the effect is run synchronously. -/
inductive Dispatch
  | sched (e : Eff)
  | run (e : Eff)
deriving DecidableEq, Repr

/-- The dispatch `triggerEffects` performs for a given effect. -/
def dispatchOf (e : Eff) : Dispatch :=
  if e.hasSched then .sched e else .run e

/-- JS `new Set(effects)`: deduplicate, keeping the first occurrence of
each element (Set iteration is insertion order).  This is the effect of
`createDep(effects)` in trigger. -/
def setDedup : List Eff → List Eff
  | [] => []
  | e :: es => e :: setDedup (es.filter (· ≠ e))
termination_by l => l.length
decreasing_by
  simp only [List.length_cons]
  exact Nat.lt_succ_of_le (List.length_filter_le _ _)

/-- The guard of the loop in `triggerEffects`:
`effect !== activeEffect || effect.allowRecurse`. -/
def dispatchGuard (active : Option Eff) (e : Eff) : Bool :=
  decide (some e ≠ active) || e.allowRecurse

/-- From effect.ts `triggerEffects`: iterate the (stabilized) effect
list; skip an effect that is the currently active effect unless it
allows recursion; dispatch every other effect through its scheduler if
present, else run it directly. -/
def triggerEffects (active : Option Eff) (effs : List Eff) : List Dispatch :=
  (effs.filter (dispatchGuard active)).map dispatchOf

/-- The tail of effect.ts `trigger` (lines 835-859): once the Deps to
notify have been collected, a single present Dep is dispatched directly;
otherwise all collected Deps are flattened into one list and wrapped in
`createDep` (a fresh Set, hence deduplicated) before dispatch. -/
def trigger (active : Option Eff) (deps : List (Option Dep)) : List Dispatch :=
  if deps.length = 1 then
    match deps.head? with
    | some (some d) => triggerEffects active d
    | _ => []
  else
    triggerEffects active (setDedup ((deps.filterMap id).flatten))

lemma mem_setDedup (x : Eff) (l : List Eff) (h : x ∈ setDedup l) : x ∈ l := by
  induction l using setDedup.induct with
  | case1 => simp [setDedup] at h
  | case2 e es ih =>
    rw [setDedup] at h
    rcases List.mem_cons.mp h with h1 | h1
    · exact h1 ▸ List.mem_cons_self _ _
    · exact List.mem_cons_of_mem _ (List.mem_of_mem_filter (ih h1))

lemma setDedup_nodup (l : List Eff) : (setDedup l).Nodup := by
  induction l using setDedup.induct with
  | case1 => simp [setDedup]
  | case2 e es ih =>
    rw [setDedup]
    refine List.nodup_cons.mpr ⟨?_, ih⟩
    intro hmem
    have := mem_setDedup _ _ hmem
    have := List.of_mem_filter this
    simp at this

lemma dispatchOf_inj : Function.Injective dispatchOf := by
  intro x y h
  unfold dispatchOf at h
  by_cases h1 : x.hasSched <;> by_cases h2 : y.hasSched <;>
    simp [h1, h2] at h <;> tauto

lemma mem_triggerEffects {active : Option Eff} {effs : List Eff} {d : Dispatch} :
    d ∈ triggerEffects active effs ↔
      ∃ y ∈ effs, dispatchGuard active y = true ∧ dispatchOf y = d := by
  unfold triggerEffects
  simp [List.mem_map, List.mem_filter]
  tauto

lemma triggerEffects_count (active : Option Eff) (effs : List Eff)
    (hnd : effs.Nodup) (e : Eff) :
    (triggerEffects active effs).count (dispatchOf e) ≤ 1 := by
  have hnd2 : (triggerEffects active effs).Nodup :=
    ((hnd.filter _).map dispatchOf_inj)
  exact List.nodup_iff_count_le_one.mp hnd2 _

/--
Claim C4 (trigger dispatch protocol).  For every call to `trigger`
(modelled from its dispatch tail over the collected Deps, each Dep being
a genuine Set and hence duplicate-free):
(1) each effect is dispatched at most once, even when it occurs in
    several collected Deps;
(2) the currently active effect is skipped unless its `allowRecurse`
    flag is set;
(3) every dispatched effect goes through its scheduler when it has one,
    and is run synchronously otherwise.
-/
theorem trigger_dispatch_protocol (active : Option Eff) (deps : List (Option Dep))
    (hnd : ∀ d ∈ deps, ∀ x, d = some x → x.Nodup) :
    (∀ e : Eff, (trigger active deps).count (dispatchOf e) ≤ 1) ∧
    (∀ e : Eff, some e = active → e.allowRecurse = false →
       dispatchOf e ∉ trigger active deps) ∧
    (∀ e : Eff, (Dispatch.sched e ∈ trigger active deps → e.hasSched = true) ∧
                (Dispatch.run e ∈ trigger active deps → e.hasSched = false)) := by
  have hmain : ∀ effs : List Eff, effs.Nodup →
      (∀ e : Eff, (triggerEffects active effs).count (dispatchOf e) ≤ 1) ∧
      (∀ e : Eff, some e = active → e.allowRecurse = false →
         dispatchOf e ∉ triggerEffects active effs) ∧
      (∀ e : Eff, (Dispatch.sched e ∈ triggerEffects active effs → e.hasSched = true) ∧
                  (Dispatch.run e ∈ triggerEffects active effs → e.hasSched = false)) := by
    intro effs hn
    refine ⟨fun e => triggerEffects_count active effs hn e, ?_, ?_⟩
    · intro e hact hrec hmem
      obtain ⟨y, _, hg, hdy⟩ := mem_triggerEffects.mp hmem
      have hye : y = e := dispatchOf_inj hdy
      subst hye
      rw [← hact] at hg
      simp [dispatchGuard, hrec] at hg
    · intro e
      constructor
      · intro hmem
        obtain ⟨y, _, _, hdy⟩ := mem_triggerEffects.mp hmem
        unfold dispatchOf at hdy
        by_cases h1 : y.hasSched <;> simp [h1] at hdy
        exact hdy ▸ h1
      · intro hmem
        obtain ⟨y, _, _, hdy⟩ := mem_triggerEffects.mp hmem
        unfold dispatchOf at hdy
        by_cases h1 : y.hasSched <;> simp [h1] at hdy
        rw [← hdy]
        simpa using h1
  unfold trigger
  by_cases hlen : deps.length = 1
  · rw [if_pos hlen]
    match hd : deps.head? with
    | some (some d) =>
        have hdmem : (some d) ∈ deps := by
          cases deps with
          | nil => simp at hd
          | cons x xs =>
            simp at hd
            exact hd ▸ List.mem_cons_self x xs
        exact hmain d (hnd (some d) hdmem d rfl)
    | some none => simp
    | none => simp
  · rw [if_neg hlen]
    exact hmain _ (setDedup_nodup _)

/-- Witness for C4: two Deps sharing one scheduler-carrying effect,
with another effect active. -/
theorem trigger_dispatch_protocol_witness :
    (trigger (some ⟨9, false, false⟩)
        [some [⟨1, true, false⟩, ⟨2, false, false⟩], some [⟨1, true, false⟩]]).count
      (dispatchOf ⟨1, true, false⟩) ≤ 1 ∧
    dispatchOf ⟨9, false, false⟩ ∉
      trigger (some ⟨9, false, false⟩)
        [some [⟨1, true, false⟩, ⟨2, false, false⟩], some [⟨9, false, false⟩]] := by
  constructor
  · exact (trigger_dispatch_protocol (some ⟨9, false, false⟩)
      [some [⟨1, true, false⟩, ⟨2, false, false⟩], some [⟨1, true, false⟩]]
      (by
        intro d hd x hx
        subst hx
        simp at hd
        rcases hd with h | h <;> subst h <;> decide)).1 ⟨1, true, false⟩
  · exact (trigger_dispatch_protocol (some ⟨9, false, false⟩)
      [some [⟨1, true, false⟩, ⟨2, false, false⟩], some [⟨9, false, false⟩]]
      (by
        intro d hd x hx
        subst hx
        simp at hd
        rcases hd with h | h <;> subst h <;> decide)).2.1
      ⟨9, false, false⟩ rfl rfl

end TriggerModel

/- ----------------------------------------------------------------- -/
/- Section: proxy set/delete traps (baseHandlers.ts, createSetter    -/
/- and readonlyHandlers), over a universe of plain values and refs.  -/
/- ----------------------------------------------------------------- -/

namespace ProxyModel

/-- A stored value: a plain (raw, non-proxy) value or a ref object,
identified by the id of its heap cell. -/
inductive Val
  | prim (n : Nat)
  | mkRef (rid : Nat)
deriving DecidableEq, Repr

/-- The `isRef` check from ref.ts (`__v_isRef === true`). -/
def isRefV : Option Val → Bool
  | some (.mkRef _) => true
  | _ => false

/-- A JS property key: an array-index-like key or a plain string key;
`isIntegerKey` from shared is true exactly for the former. -/
inductive PKey
  | idx (n : Nat)
  | name (s : String)
deriving DecidableEq, Repr

def isIntegerKey : PKey → Bool
  | .idx _ => true
  | .name _ => false

/-- The proxied target object: whether it is an array, its length (for
the array branch of the `hadKey` computation), and its own properties. -/
structure Target where
  isArr : Bool
  arrLen : Nat
  props : List (PKey × Val)
deriving DecidableEq, Repr

/-- The heap of ref cells: `rid ↦ current .value`. -/
abbrev Heap := List (Nat × Val)

def heapGet : Heap → Nat → Option Val
  | [], _ => none
  | (a, b) :: t, r => if a = r then some b else heapGet t r

def heapSet : Heap → Nat → Val → Heap
  | [], r, v => [(r, v)]
  | (a, b) :: t, r, v => if a = r then (a, v) :: t else (a, b) :: heapSet t r v

def plook : List (PKey × Val) → PKey → Option Val
  | [], _ => none
  | (a, b) :: t, k => if a = k then some b else plook t k

def pset : List (PKey × Val) → PKey → Val → List (PKey × Val)
  | [], k, v => [(k, v)]
  | (a, b) :: t, k, v => if a = k then (a, v) :: t else (a, b) :: pset t k v

/-- Property access on the raw target (`target[key]` / `Reflect.get`). -/
def lookupProp (t : Target) (k : PKey) : Option Val := plook t.props k

/-- Property update on the raw target (`Reflect.set`). -/
def setProp (t : Target) (k : PKey) (v : Val) : Target :=
  { t with props := pset t.props k v }

/-- A `trigger` call fired from a trap. -/
inductive TrigOp
  | add (k : PKey)
  | set (k : PKey)
  | del (k : PKey)
deriving DecidableEq, Repr

/-- Result of a trap invocation: the boolean the trap returns, the
resulting target and ref heap, and the `trigger` calls it performed. -/
structure TrapResult where
  ok : Bool
  tgt : Target
  heap : Heap
  triggers : List TrigOp
deriving DecidableEq, Repr

/--
The deep mutable set trap from baseHandlers.ts `createSetter()` on the
canonical receiver.  The modelled value universe contains no readonly
proxies, so `isReadonly(value)` is `false` and `toRaw` is the identity;
with `shallow = false` the trap therefore:
reads the old value; if the target is not an array, the old value is a
ref and the incoming value is not, assigns through the ref's `.value`
and returns `true`; otherwise computes `hadKey` (index-below-length for
arrays with an integer key, own-property check otherwise), performs
`Reflect.set`, and fires `trigger` with ADD when the key was absent or
SET when the value changed.
-/
def mutableSet (tgt : Target) (heap : Heap) (key : PKey) (value : Val) : TrapResult :=
  let oldValue := lookupProp tgt key
  if !tgt.isArr && isRefV oldValue && !isRefV (some value) then
    match oldValue with
    | some (.mkRef r) => ⟨true, tgt, heapSet heap r value, []⟩
    | _ => ⟨true, tgt, heap, []⟩
  else
    let hadKey :=
      if tgt.isArr && isIntegerKey key then
        match key with
        | .idx n => decide (n < tgt.arrLen)
        | .name _ => false
      else (lookupProp tgt key).isSome
    let tgt1 := setProp tgt key value
    if !hadKey then ⟨true, tgt1, heap, [.add key]⟩
    else if some value ≠ oldValue then ⟨true, tgt1, heap, [.set key]⟩
    else ⟨true, tgt1, heap, []⟩

/-- The ref-unwrapping part of the deep get trap (`createGetter()`):
a ref stored at a non-(array + integer-key) slot is auto-unwrapped to
its `.value`. -/
def readThroughProxy (tgt : Target) (heap : Heap) (key : PKey) : Option Val :=
  let res := lookupProp tgt key
  match res with
  | some (.mkRef r) =>
      if !tgt.isArr || !isIntegerKey key then heapGet heap r else res
  | _ => res

/-- The set trap of `readonlyHandlers`: warn in dev and return `true`
without touching the target and without calling `trigger`. -/
def readonlySet (tgt : Target) (heap : Heap) (_key : PKey) (_value : Val) : TrapResult :=
  ⟨true, tgt, heap, []⟩

/-- The deleteProperty trap of `readonlyHandlers`: warn in dev and
return `true` without touching the target and without calling
`trigger`. -/
def readonlyDelete (tgt : Target) (heap : Heap) (_key : PKey) : TrapResult :=
  ⟨true, tgt, heap, []⟩

/-- JS semantics of an assignment (or deletion) through a proxy: a
TypeError is thrown exactly when the trap reported failure and the code
is in strict mode; in sloppy mode the result is always normal. -/
inductive JsOutcome
  | normal
  | typeError
deriving DecidableEq, Repr

def trapOutcome (strict : Bool) (r : TrapResult) : JsOutcome :=
  if strict && !r.ok then .typeError else .normal

lemma heapGet_heapSet (h : Heap) (r : Nat) (v : Val) :
    heapGet (heapSet h r v) r = some v := by
  induction h with
  | nil => simp [heapSet, heapGet]
  | cons p t ih =>
    rcases p with ⟨a, b⟩
    by_cases ha : a = r
    · simp [heapSet, heapGet, ha]
    · simp [heapSet, heapGet, ha, ih]

/--
Claim C6, corrected statement at the failing input: for an array target
whose slot 0 holds a ref with current value 1, assigning the plain
value 2 through the deep set trap does not assign through the ref —
the ref object is replaced by the raw value at the slot and its cell
still holds 1, contradicting the claim's `unref(oldRefObject) === 2`
and its preservation of the ref at the slot.
-/
theorem ref_preserving_assignment_cex :
    isRefV (lookupProp ⟨true, 1, [(.idx 0, .mkRef 7)]⟩ (.idx 0)) = true ∧
    isRefV (some (.prim 2)) = false ∧
    lookupProp (mutableSet ⟨true, 1, [(.idx 0, .mkRef 7)]⟩ [(7, .prim 1)]
        (.idx 0) (.prim 2)).tgt (.idx 0) = some (.prim 2) ∧
    heapGet (mutableSet ⟨true, 1, [(.idx 0, .mkRef 7)]⟩ [(7, .prim 1)]
        (.idx 0) (.prim 2)).heap 7 = some (.prim 1) ∧
    ¬ (heapGet (mutableSet ⟨true, 1, [(.idx 0, .mkRef 7)]⟩ [(7, .prim 1)]
        (.idx 0) (.prim 2)).heap 7 = some (.prim 2)) := by
  decide

/--
Claim C6 as amended: for a non-array target, whenever the existing
value at a property slot is a ref and the incoming value is not a ref
(and, per the guard in the code, not a readonly proxy — the modelled
universe has none), the assignment is performed through the existing
ref's `.value`: the trap returns true, the slot still holds the same
ref object, the ref's cell now holds the incoming value (so
`unref(oldRefObject)` equals it), no `trigger` fires from this path,
and reading the property back through the proxy yields the new value.
-/
theorem ref_preserving_assignment (tgt : Target) (heap : Heap) (key : PKey)
    (value : Val) (r : Nat)
    (harr : tgt.isArr = false)
    (hold : lookupProp tgt key = some (.mkRef r))
    (hval : isRefV (some value) = false) :
    (mutableSet tgt heap key value).ok = true ∧
    (mutableSet tgt heap key value).tgt = tgt ∧
    heapGet (mutableSet tgt heap key value).heap r = some value ∧
    (mutableSet tgt heap key value).triggers = [] ∧
    readThroughProxy (mutableSet tgt heap key value).tgt
      (mutableSet tgt heap key value).heap key = some value := by
  have hres : mutableSet tgt heap key value = ⟨true, tgt, heapSet heap r value, []⟩ := by
    cases value with
    | mkRef rid => simp [isRefV] at hval
    | prim n => simp [mutableSet, hold, harr, isRefV]
  refine ⟨by rw [hres], by rw [hres], ?_, by rw [hres], ?_⟩
  · rw [hres]
    exact heapGet_heapSet heap r value
  · rw [hres]
    unfold readThroughProxy
    simp only
    rw [hold]
    simp [harr, heapGet_heapSet]

/-- Witness for C6 as amended: a plain object `{x: ref(1)}`, assigning
the plain value 2 to `x`. -/
theorem ref_preserving_assignment_witness :
    heapGet (mutableSet ⟨false, 0, [(.name "x", .mkRef 7)]⟩ [(7, .prim 1)]
        (.name "x") (.prim 2)).heap 7 = some (.prim 2) ∧
    readThroughProxy (mutableSet ⟨false, 0, [(.name "x", .mkRef 7)]⟩ [(7, .prim 1)]
        (.name "x") (.prim 2)).tgt
      (mutableSet ⟨false, 0, [(.name "x", .mkRef 7)]⟩ [(7, .prim 1)]
        (.name "x") (.prim 2)).heap (.name "x") = some (.prim 2) := by
  have h := ref_preserving_assignment ⟨false, 0, [(.name "x", .mkRef 7)]⟩
    [(7, .prim 1)] (.name "x") (.prim 2) 7 rfl (by decide) (by decide)
  exact ⟨h.2.2.1, h.2.2.2.2⟩

/--
Claim C10 (readonly proxies swallow writes): both the set and the
deleteProperty traps of `readonlyHandlers` report success (returning
`true`, so even in strict mode no TypeError arises and in sloppy mode
the write is silently swallowed), leave the target and every ref cell
untouched, and never call `trigger` — hence no subscribed effect can be
notified by such a write.
-/
theorem readonly_swallow_writes (tgt : Target) (heap : Heap) (key : PKey)
    (value : Val) (strict : Bool) :
    readonlySet tgt heap key value = ⟨true, tgt, heap, []⟩ ∧
    readonlyDelete tgt heap key = ⟨true, tgt, heap, []⟩ ∧
    trapOutcome strict (readonlySet tgt heap key value) = .normal ∧
    trapOutcome strict (readonlyDelete tgt heap key) = .normal ∧
    ((readonlySet tgt heap key value).triggers.map (fun _ => TriggerModel.trigger none [])).flatten = [] := by
  refine ⟨rfl, rfl, ?_, ?_, rfl⟩
  · unfold trapOutcome readonlySet
    cases strict <;> rfl
  · unfold trapOutcome readonlyDelete
    cases strict <;> rfl

end ProxyModel

/- ----------------------------------------------------------------- -/
/- Section: scheduler recursion ceiling (scheduler.ts,               -/
/- checkRecursiveUpdates and the flushJobs main loop).               -/
/- ----------------------------------------------------------------- -/

namespace RecursionModel

/-- From scheduler.ts: `const RECURSION_LIMIT = 100`. -/
def RECURSION_LIMIT : Nat := 100

/-- The `CountMap` (`Map<SchedulerJob, number>`) keyed by job identity. -/
abbrev Seen := List (Nat × Nat)

def seenGet : Seen → Nat → Option Nat
  | [], _ => none
  | (a, b) :: t, k => if a = k then some b else seenGet t k

def seenSet : Seen → Nat → Nat → Seen
  | [], k, v => [(k, v)]
  | (a, b) :: t, k, v => if a = k then (a, v) :: t else (a, b) :: seenSet t k v

/-- Result of `checkRecursiveUpdates`: whether the job is skipped
(the function returned `true`), whether the over-limit warning was
reported, and the updated count map. -/
structure CheckResult where
  skip : Bool
  warned : Bool
  seen : Seen
deriving DecidableEq, Repr

/-- From scheduler.ts `checkRecursiveUpdates`: a first sighting records
count 1; a count above `RECURSION_LIMIT` warns about a likely
self-triggering loop and returns `true`; otherwise the count is
incremented and the job may run. -/
def checkRecursiveUpdates (seen : Seen) (fn : Nat) : CheckResult :=
  match seenGet seen fn with
  | none => ⟨false, false, seenSet seen fn 1⟩
  | some count =>
      if count > RECURSION_LIMIT then ⟨true, true, seen⟩
      else ⟨false, false, seenSet seen fn (count + 1)⟩

/-- A scheduler job as needed here: its identity, its `allowRecurse`
flag, and whether running it re-queues itself (a self-triggering
watcher). -/
structure RJob where
  jid : Nat
  allowRecurse : Bool
  selfTrigger : Bool
deriving DecidableEq, Repr

/-- Flush log entries: a job execution, or the over-limit report. -/
inductive REntry
  | ran (jid : Nat)
  | warned (jid : Nat)
deriving DecidableEq, Repr

/-- From scheduler.ts `queueJob` for an id-less job during a flush: the
dedupe search starts at `flushIndex` (or `flushIndex + 1` when the job
allows recursion, so it can re-queue itself); if absent from that
suffix the job is pushed at the tail. -/
def queueJobAt (queue : List RJob) (flushIndex : Nat) (job : RJob) : List RJob :=
  let start := if job.allowRecurse then flushIndex + 1 else flushIndex
  if job ∈ queue.drop start then queue else queue ++ [job]

/-- The main loop of `flushJobs` (dev build): for each queue position,
consult `checkRecursiveUpdates`; on skip, `continue` with the next job;
otherwise run the job (which may re-queue itself) and move on.  `fuel`
bounds the iteration count; the loop yields the flush log. -/
def flushLoop : Nat → List RJob → Nat → Seen → List REntry → Option (List REntry)
  | 0, _, _, _, _ => none
  | fuel + 1, queue, flushIndex, seen, log =>
    if h : flushIndex < queue.length then
      let job := queue.get ⟨flushIndex, h⟩
      let c := checkRecursiveUpdates seen job.jid
      if c.skip then flushLoop fuel queue (flushIndex + 1) c.seen (log ++ [.warned job.jid])
      else
        let log1 := log ++ [.ran job.jid]
        let queue1 := if job.selfTrigger then queueJobAt queue flushIndex job else queue
        flushLoop fuel queue1 (flushIndex + 1) c.seen log1
    else some log

lemma seenGet_seenSet (s : Seen) (k v : Nat) :
    seenGet (seenSet s k v) k = some v := by
  induction s with
  | nil => simp [seenSet, seenGet]
  | cons p t ih =>
    rcases p with ⟨a, b⟩
    by_cases ha : a = k
    · simp [seenSet, seenGet, ha]
    · simp [seenSet, seenGet, ha, ih]

/--
Claim C9 (scheduler recursion ceiling).  A per-job run counter is kept
during a flush; a job whose count exceeds the recursion limit (100) is
reported as a likely self-triggering loop and skipped for that flush,
while counts up to the ceiling are permitted; the skip neither aborts
the rest of the flush (a later job still runs) nor loops forever (a
job that always re-triggers itself completes the flush after 101 runs
and one warning).
-/
theorem scheduler_recursion_ceiling :
    RECURSION_LIMIT = 100 ∧
    (∀ (seen : Seen) (fn c : Nat), seenGet seen fn = some c →
        (c > RECURSION_LIMIT → checkRecursiveUpdates seen fn = ⟨true, true, seen⟩) ∧
        (c ≤ RECURSION_LIMIT →
           (checkRecursiveUpdates seen fn).skip = false ∧
           seenGet (checkRecursiveUpdates seen fn).seen fn = some (c + 1))) ∧
    (∀ (seen : Seen) (fn : Nat), seenGet seen fn = none →
        (checkRecursiveUpdates seen fn).skip = false ∧
        seenGet (checkRecursiveUpdates seen fn).seen fn = some 1) ∧
    (∀ a b : Nat, a ≠ b →
        flushLoop 10 [⟨a, false, false⟩, ⟨b, false, false⟩] 0 [(a, 101)] []
          = some [.warned a, .ran b]) ∧
    flushLoop 200 [⟨1, true, true⟩] 0 [] []
      = some (List.replicate 101 (REntry.ran 1) ++ [.warned 1]) := by
  refine ⟨rfl, ?_, ?_, ?_, by decide⟩
  · intro seen fn c hget
    constructor
    · intro hgt
      unfold checkRecursiveUpdates
      rw [hget]
      simp [hgt]
    · intro hle
      have hnotgt : ¬ c > RECURSION_LIMIT := by omega
      unfold checkRecursiveUpdates
      rw [hget]
      simp [hnotgt, seenGet_seenSet]
  · intro seen fn hget
    unfold checkRecursiveUpdates
    rw [hget]
    exact ⟨rfl, seenGet_seenSet seen fn 1⟩
  · intro a b hab
    have hba : (a = b) = False := by simp [hab]
    simp [flushLoop, checkRecursiveUpdates, seenGet, RECURSION_LIMIT, hba]

/-- Witness for C9 at concrete inputs: a count of 101 is skipped, a
count of 100 is still permitted, and the two-job flush with a poisoned
first job still runs the second. -/
theorem scheduler_recursion_ceiling_witness :
    checkRecursiveUpdates [(7, 101)] 7 = ⟨true, true, [(7, 101)]⟩ ∧
    (checkRecursiveUpdates [(7, 100)] 7).skip = false ∧
    flushLoop 10 [⟨5, false, false⟩, ⟨6, false, false⟩] 0 [(5, 101)] []
      = some [.warned 5, .ran 6] := by
  have h := scheduler_recursion_ceiling
  refine ⟨?_, ?_, h.2.2.2.1 5 6 (by decide)⟩
  · exact (h.2.1 [(7, 101)] 7 101 (by decide)).1 (by decide)
  · exact ((h.2.1 [(7, 100)] 7 100 (by decide)).2 (by decide)).1

end RecursionModel

/- ----------------------------------------------------------------- -/
/- Section: Suspense boundary (Suspense.ts, createSuspenseBoundary:  -/
/- resolve and registerDep).                                         -/
/- ----------------------------------------------------------------- -/

namespace SuspenseModel

/-- The observable state of one suspense boundary: the pending
dependency counter (a JS number, so an integer), the generation id of
the current pending attempt, whether a pending branch exists, the
fallback flag, the unmounted flag, how many times `resolve` completed
(the `onResolve` event fired), and the errors routed to `handleError`. -/
structure SState where
  deps : Int
  pendingId : Nat
  pendingBranch : Bool
  isInFallback : Bool
  isUnmounted : Bool
  resolved : Nat
  errors : List Nat
deriving DecidableEq, Repr

/-- From Suspense.ts `resolve(resume = false)`: the dev assertions throw
when called without a pending branch (unless resuming) or on an
unmounted boundary; otherwise the pending branch is committed — the
branch handoff itself is host-tree work abstracted away here — the
pending branch is cleared, the fallback flag dropped, and the
`onResolve` event fired. -/
def resolve (resume : Bool) (st : SState) : Except String SState :=
  if !resume && !st.pendingBranch then
    .error "suspense.resolve() is called without a pending branch."
  else if st.isUnmounted then
    .error "suspense.resolve() is called on an already unmounted suspense boundary."
  else
    .ok { st with pendingBranch := false, isInFallback := false,
                  resolved := st.resolved + 1 }

/-- From Suspense.ts `registerDep`: at registration time, if a pending
branch exists the boundary's `deps` counter is incremented; the flag
returned is the captured `isInPendingSuspense`. -/
def register (st : SState) : SState × Bool :=
  if st.pendingBranch then ({ st with deps := st.deps + 1 }, true) else (st, false)

/-- Settlement of one async setup under `registerDep`: the promise
chain is `.catch(err => handleError(err, …)).then(result => …)`, so a
rejection is first routed to the error-handling path and the `.then`
continuation still runs (with an undefined result).  The continuation
returns early — ignoring the settlement — when the component instance
or the boundary is unmounted or the pending generation moved on;
otherwise the component's render effect is installed (host-tree work
abstracted away) and, if the dependency was registered under a pending
boundary, `--suspense.deps === 0` triggers `resolve()`. -/
def settle (st : SState) (instUnmounted : Bool) (suspenseId : Nat)
    (isInPending : Bool) (outcome : Except Nat Nat) : Except String SState :=
  let st1 :=
    match outcome with
    | .error e => { st with errors := st.errors ++ [e] }
    | .ok _ => st
  if instUnmounted || st1.isUnmounted || decide (st1.pendingId ≠ suspenseId) then
    .ok st1
  else
    let st2 := if isInPending then { st1 with deps := st1.deps - 1 } else st1
    if isInPending && decide (st2.deps = 0) then resolve false st2 else .ok st2

/--
Claim C8 (Suspense settles failing dependencies).
(a) `resolve` is only entered successfully when a pending branch exists
    or resuming is explicit;
(b) on a pending, live boundary (matching generation), a rejected async
    setup is routed to the error-handling path and still counts as
    settled: the `deps` counter is decremented, and when it reaches
    zero the boundary resolves automatically — the pending branch is
    cleared and `onResolve` fires — so the boundary is not left
    permanently pending;
(c) even when the settlement is ignored (instance or boundary already
    unmounted, or a stale generation), the rejection is still reported
    through the error path.
-/
theorem suspense_settles_failures :
    (∀ (st : SState) (resume : Bool) (st1 : SState),
        resolve resume st = .ok st1 → resume = true ∨ st.pendingBranch = true) ∧
    (∀ (st : SState) (e : Nat),
        st.isUnmounted = false → st.pendingBranch = true →
        (st.deps ≠ 1 →
          settle st false st.pendingId true (.error e)
            = .ok { st with errors := st.errors ++ [e], deps := st.deps - 1 }) ∧
        (st.deps = 1 →
          settle st false st.pendingId true (.error e)
            = .ok { st with errors := st.errors ++ [e], deps := 0,
                            pendingBranch := false, isInFallback := false,
                            resolved := st.resolved + 1 })) ∧
    (∀ (st : SState) (e : Nat) (sid : Nat) (iu : Bool) (ip : Bool),
        (iu = true ∨ st.isUnmounted = true ∨ st.pendingId ≠ sid) →
        settle st iu sid ip (.error e)
          = .ok { st with errors := st.errors ++ [e] }) := by
  refine ⟨?_, ?_, ?_⟩
  · intro st resume st1 hok
    unfold resolve at hok
    by_cases hr : resume
    · exact Or.inl (by simpa using hr)
    · by_cases hp : st.pendingBranch
      · exact Or.inr hp
      · exfalso
        simp [hr, hp] at hok
  · intro st e hum hpb
    constructor
    · intro hdeps
      unfold settle
      simp only [hum, hpb, Bool.false_or, Bool.or_false]
      simp [hdeps, sub_eq_zero]
    · intro hdeps
      unfold settle
      simp only [hum, hpb]
      simp [hdeps, resolve, hum, hpb]
  · intro st e sid iu ip hguard
    unfold settle
    rcases hguard with h | h | h <;> simp [h]

/-- Witness for C8: a live pending boundary with a single failing
dependency resolves with the error recorded. -/
theorem suspense_settles_failures_witness :
    settle ⟨1, 0, true, true, false, 0, []⟩ false 0 true (.error 42)
      = .ok ⟨0, 0, false, false, false, 1, [42]⟩ ∧
    resolve false ⟨0, 0, true, true, false, 0, []⟩
      = .ok ⟨0, 0, false, false, false, 1, []⟩ := by
  constructor
  · have h := (suspense_settles_failures.2.1 ⟨1, 0, true, true, false, 0, []⟩ 42
      rfl rfl).2 rfl
    simpa using h
  · rfl

end SuspenseModel

/- ----------------------------------------------------------------- -/
/- Section: keep-alive cache (KeepAlive.ts, the setup render closure  -/
/- and pruneCacheEntry, plus the renderer's unmount dispatch on the   -/
/- COMPONENT_SHOULD_KEEP_ALIVE shape flag).                           -/
/- ----------------------------------------------------------------- -/

namespace KeepAliveModel

/-- The two shape-flag bits managed by keep-alive
(`1 << 8` and `1 << 9` from shapeFlags.ts). -/
def SHOULD_KEEP_ALIVE : Nat := 256

def KEPT_ALIVE : Nat := 512

/-- A component vnode as keep-alive sees it: the component type (also
the default cache key for keyless children), the attached component
instance, and the shape-flag bitmask. -/
structure KVNode where
  typ : Nat
  comp : Nat
  shapeFlag : Nat
deriving DecidableEq, Repr

/-- From KeepAlive.ts `resetShapeFlag`: subtract each keep-alive bit
that is present. -/
def resetShapeFlag (v : KVNode) : KVNode :=
  let f1 := if v.shapeFlag &&& SHOULD_KEEP_ALIVE ≠ 0
            then v.shapeFlag - SHOULD_KEEP_ALIVE else v.shapeFlag
  let f2 := if f1 &&& KEPT_ALIVE ≠ 0 then f1 - KEPT_ALIVE else f1
  { v with shapeFlag := f2 }

abbrev KCache := List (Nat × KVNode)

def cacheGet : KCache → Nat → Option KVNode
  | [], _ => none
  | (a, b) :: t, k => if a = k then some b else cacheGet t k

def cacheErase : KCache → Nat → KCache
  | [], _ => []
  | (a, b) :: t, k => if a = k then t else (a, b) :: cacheErase t k

def cacheSet : KCache → Nat → KVNode → KCache
  | [], k, v => [(k, v)]
  | (a, b) :: t, k, v => if a = k then (a, v) :: t else (a, b) :: cacheSet t k v

/-- JS `Set.delete` on the access-order key set. -/
def keyErase (l : List Nat) (k : Nat) : List Nat := l.erase k

/-- JS `Set.add`: appends only when absent (no position change when the
key is already present). -/
def keyAdd (l : List Nat) (k : Nat) : List Nat := if k ∈ l then l else l ++ [k]

/-- KeepAlive state: the key→vnode cache, the access-order key set
(least recently touched first), and the `current` vnode of the latest
render. -/
structure KState where
  cache : KCache
  keys : List Nat
  current : Option KVNode
deriving DecidableEq, Repr

/-- Teardown events observable on a component instance. -/
inductive KEvent
  | unmounted (comp : Nat)
  | deactivated (comp : Nat)
deriving DecidableEq, Repr

/-- From KeepAlive.ts `pruneCacheEntry`: the cached entry is unmounted
for real (reset flags, then the renderer `_unmount`) unless it is the
current vnode's type, in which case the current vnode merely loses its
keep-alive flags (it will be torn down for real by the renderer later);
the entry leaves both the cache and the key set.  Returns the new
cache, the new key set, the (possibly flag-reset) current vnode and the
teardown events fired immediately. -/
def pruneCacheEntry (cache : KCache) (keys : List Nat) (cur : Option KVNode)
    (key : Nat) : KCache × List Nat × Option KVNode × List KEvent :=
  match cacheGet cache key with
  | none => (cacheErase cache key, keyErase keys key, cur, [])
  | some cached =>
    match cur with
    | none => (cacheErase cache key, keyErase keys key, none, [.unmounted cached.comp])
    | some c =>
      if cached.typ ≠ c.typ then
        (cacheErase cache key, keyErase keys key, some c, [.unmounted cached.comp])
      else
        (cacheErase cache key, keyErase keys key, some (resetShapeFlag c), [])

/-- The cache-management part of the render closure in KeepAlive.ts
`setup`, for a single stateful component child with no explicit key
(hence keyed by its component type):  a cache hit reuses the cached
instance, marks the vnode `COMPONENT_KEPT_ALIVE` and refreshes the
key's position; a cache miss adds the key and, when a max size is
configured and exceeded, prunes the least-recently-touched key.  Both
paths mark the vnode `COMPONENT_SHOULD_KEEP_ALIVE` and set `current`.
Returns the new state, the previous `current` as left by any pruning
(this is the object the renderer still holds as the old subtree), and
the events fired during the render. -/
def renderStep (st : KState) (child : KVNode) (max : Option Nat) :
    KState × Option KVNode × List KEvent :=
  let key := child.typ
  let oldCur := st.current
  match cacheGet st.cache key with
  | some cachedVNode =>
      let vnode := { child with
                     comp := cachedVNode.comp
                     shapeFlag := (child.shapeFlag ||| KEPT_ALIVE) ||| SHOULD_KEEP_ALIVE }
      (⟨st.cache, keyAdd (keyErase st.keys key) key, some vnode⟩, oldCur, [])
  | none =>
      let keys1 := keyAdd st.keys key
      let pruned :=
        match max with
        | some m =>
            if keys1.length > m then
              match keys1.head? with
              | some oldest => pruneCacheEntry st.cache keys1 oldCur oldest
              | none => (st.cache, keys1, oldCur, [])
            else (st.cache, keys1, oldCur, [])
        | none => (st.cache, keys1, oldCur, [])
      let vnode := { child with shapeFlag := child.shapeFlag ||| SHOULD_KEEP_ALIVE }
      (⟨pruned.1, pruned.2.1, some vnode⟩, pruned.2.2.1, pruned.2.2.2)

/-- The renderer's `unmount` dispatch (renderer.ts): a vnode whose
shape flag still carries `COMPONENT_SHOULD_KEEP_ALIVE` is handed to
`deactivate` (moved off-tree); otherwise it is torn down for real. -/
def rendererUnmount (v : KVNode) : KEvent :=
  if v.shapeFlag &&& SHOULD_KEEP_ALIVE ≠ 0 then .deactivated v.comp else .unmounted v.comp

/-- One full keep-alive update cycle for a child of a type different
from the previous render: the render closure runs (with its pruning),
the reconciler then replaces the old subtree — unmounting the old
`current` through the renderer's flag dispatch — and the
mounted/updated hook caches the freshly rendered subtree. -/
def updateCycle (st : KState) (child : KVNode) (max : Option Nat) :
    KState × List KEvent :=
  let r := renderStep st child max
  let st1 := r.1
  let oldC := r.2.1
  let evs := r.2.2
  let unmountEvs :=
    match oldC with
    | none => []
    | some v => if v.typ ≠ child.typ then [rendererUnmount v] else []
  let cached :=
    match st1.current with
    | some v => cacheSet st1.cache child.typ v
    | none => st1.cache
  (⟨cached, st1.keys, st1.current⟩, evs ++ unmountEvs)

lemma and256_eq (y : Nat) : y &&& 256 = if y.testBit 8 then 256 else 0 := by
  have h := Nat.and_two_pow y 8
  norm_num at h
  rw [h]
  cases hb : y.testBit 8 <;> simp

lemma and512_eq (y : Nat) : y &&& 512 = if y.testBit 9 then 512 else 0 := by
  have h := Nat.and_two_pow y 9
  norm_num at h
  rw [h]
  cases hb : y.testBit 9 <;> simp

lemma sub256_bit8 (x : Nat) (h : x.testBit 8 = true) : (x - 256).testBit 8 = false := by
  rw [Nat.testBit_to_div_mod] at h ⊢
  simp at h ⊢
  omega

lemma sub512_bit8 (x : Nat) (h8 : x.testBit 8 = false) : (x - 512).testBit 8 = false := by
  rw [Nat.testBit_to_div_mod] at h8 ⊢
  simp at h8 ⊢
  omega

lemma resetShapeFlag_bit8 (v : KVNode) :
    (resetShapeFlag v).shapeFlag.testBit 8 = false := by
  unfold resetShapeFlag SHOULD_KEEP_ALIVE KEPT_ALIVE
  simp only
  by_cases h8 : v.shapeFlag.testBit 8
  · have hc1 : (v.shapeFlag &&& 256 ≠ 0) := by
      rw [and256_eq, if_pos h8]
      norm_num
    rw [if_pos hc1]
    have hf1 : (v.shapeFlag - 256).testBit 8 = false := sub256_bit8 _ h8
    by_cases h9 : ((v.shapeFlag - 256) &&& 512 ≠ 0)
    · rw [if_pos h9]
      exact sub512_bit8 _ hf1
    · rw [if_neg h9]
      exact hf1
  · have h8f : v.shapeFlag.testBit 8 = false := by simpa using h8
    have hc1 : ¬(v.shapeFlag &&& 256 ≠ 0) := by
      rw [and256_eq, if_neg h8]
      norm_num
    rw [if_neg hc1]
    by_cases h9 : (v.shapeFlag &&& 512 ≠ 0)
    · rw [if_pos h9]
      exact sub512_bit8 _ h8f
    · rw [if_neg h9]
      exact h8f

/-- After `resetShapeFlag`, the `COMPONENT_SHOULD_KEEP_ALIVE` bit is
clear, so the renderer's unmount dispatch tears the vnode down for
real. -/
lemma resetShapeFlag_clears (v : KVNode) :
    (resetShapeFlag v).shapeFlag &&& SHOULD_KEEP_ALIVE = 0 := by
  show (resetShapeFlag v).shapeFlag &&& 256 = 0
  rw [and256_eq, resetShapeFlag_bit8]
  rfl

lemma resetShapeFlag_comp (v : KVNode) : (resetShapeFlag v).comp = v.comp := rfl

lemma resetShapeFlag_typ (v : KVNode) : (resetShapeFlag v).typ = v.typ := rfl

lemma rendererUnmount_reset (c : KVNode) :
    rendererUnmount (resetShapeFlag c) = .unmounted c.comp := by
  unfold rendererUnmount
  rw [resetShapeFlag_clears]
  simp [resetShapeFlag_comp]

lemma prune_cache_keys (cache : KCache) (keys : List Nat) (cur : Option KVNode) (key : Nat) :
    (pruneCacheEntry cache keys cur key).1 = cacheErase cache key ∧
    (pruneCacheEntry cache keys cur key).2.1 = keyErase keys key := by
  unfold pruneCacheEntry
  rcases h : cacheGet cache key with _ | cached
  · exact ⟨rfl, rfl⟩
  · rcases cur with _ | c
    · exact ⟨rfl, rfl⟩
    · by_cases ht : cached.typ = c.typ <;> simp [ht]

lemma cacheGet_none_of_not_mem (c : KCache) (k : Nat) (h : k ∉ c.map Prod.fst) :
    cacheGet c k = none := by
  induction c with
  | nil => rfl
  | cons p t ih =>
    rcases p with ⟨a, b⟩
    simp at h
    rw [cacheGet]
    rw [if_neg (by intro he; exact h.1 he.symm)]
    exact ih (by simp [h.2])

lemma cacheGet_cacheErase (c : KCache) (k : Nat) (hnd : (c.map Prod.fst).Nodup) :
    cacheGet (cacheErase c k) k = none := by
  induction c with
  | nil => rfl
  | cons p t ih =>
    rcases p with ⟨a, b⟩
    simp at hnd
    by_cases ha : a = k
    · rw [cacheErase]
      rw [if_pos ha]
      exact cacheGet_none_of_not_mem t k (by subst ha; simpa using hnd.1)
    · rw [cacheErase]
      rw [if_neg ha]
      rw [cacheGet]
      rw [if_neg ha]
      exact ih hnd.2

lemma keyAdd_nodup (l : List Nat) (k : Nat) (h : l.Nodup) : (keyAdd l k).Nodup := by
  unfold keyAdd
  by_cases hm : k ∈ l
  · simpa [hm] using h
  · simp [hm]
    exact List.Nodup.append h (List.nodup_singleton k) (by simpa using hm)

lemma keyAdd_ne_nil (l : List Nat) (k : Nat) : keyAdd l k ≠ [] := by
  unfold keyAdd
  by_cases hm : k ∈ l
  · simp [hm]
    intro he
    subst he
    simp at hm
  · simp [hm]

/--
Claim C7 (keep-alive LRU eviction), parts (1)-(3): a cache hit reuses
the cached instance, marks the vnode kept-alive and refreshes the key's
position in the access-order set; a cache miss inserts the new key and
evicts nothing when no max is configured or the max is not exceeded;
when a max is configured and exceeded, the least-recently-touched key
is pruned from both the cache and the key set.  Part (4): the pruned
entry's component instance is actually unmounted (torn down) by the end
of the update cycle, never merely deactivated — either immediately by
`pruneCacheEntry`, or, when the pruned entry is the current vnode's
type, through the renderer after its keep-alive flags are reset.
-/
theorem keepalive_lru_eviction :
    (∀ (st : KState) (child : KVNode) (max : Option Nat) (cached : KVNode),
       cacheGet st.cache child.typ = some cached →
       renderStep st child max
         = (⟨st.cache, keyAdd (keyErase st.keys child.typ) child.typ,
             some { child with
                    comp := cached.comp
                    shapeFlag := (child.shapeFlag ||| KEPT_ALIVE) ||| SHOULD_KEEP_ALIVE }⟩,
            st.current, [])) ∧
    (∀ (st : KState) (child : KVNode),
       cacheGet st.cache child.typ = none →
       renderStep st child none
         = (⟨st.cache, keyAdd st.keys child.typ,
             some { child with shapeFlag := child.shapeFlag ||| SHOULD_KEEP_ALIVE }⟩,
            st.current, []) ∧
       ∀ m : Nat, ¬ (keyAdd st.keys child.typ).length > m →
         renderStep st child (some m)
           = (⟨st.cache, keyAdd st.keys child.typ,
               some { child with shapeFlag := child.shapeFlag ||| SHOULD_KEEP_ALIVE }⟩,
              st.current, [])) ∧
    (∀ (st : KState) (child : KVNode) (m : Nat),
       cacheGet st.cache child.typ = none →
       (keyAdd st.keys child.typ).length > m →
       st.keys.Nodup → (st.cache.map Prod.fst).Nodup →
       ∃ k, (keyAdd st.keys child.typ).head? = some k ∧
         (renderStep st child (some m)).1.keys = keyErase (keyAdd st.keys child.typ) k ∧
         (renderStep st child (some m)).1.cache = cacheErase st.cache k ∧
         k ∉ (renderStep st child (some m)).1.keys ∧
         cacheGet (renderStep st child (some m)).1.cache k = none) ∧
    (∀ (st : KState) (child : KVNode) (m k : Nat) (cached c : KVNode),
       cacheGet st.cache child.typ = none →
       (keyAdd st.keys child.typ).length > m →
       (keyAdd st.keys child.typ).head? = some k →
       cacheGet st.cache k = some cached →
       st.current = some c →
       c.typ ≠ child.typ →
       (cached.typ = c.typ → cached.comp = c.comp) →
       (cached.typ ≠ c.typ → cached.comp ≠ c.comp) →
       KEvent.unmounted cached.comp ∈ (updateCycle st child (some m)).2 ∧
       KEvent.deactivated cached.comp ∉ (updateCycle st child (some m)).2) := by
  refine ⟨?_, ?_, ?_, ?_⟩
  · intro st child max cached hc
    simp [renderStep, hc]
  · intro st child hc
    constructor
    · simp [renderStep, hc]
    · intro m hm
      simp [renderStep, hc, hm]
  · intro st child m hc hgt hkn hcn
    obtain ⟨k, hk⟩ : ∃ k, (keyAdd st.keys child.typ).head? = some k := by
      cases hh : keyAdd st.keys child.typ with
      | nil => exact absurd hh (keyAdd_ne_nil _ _)
      | cons x xs => exact ⟨x, rfl⟩
    refine ⟨k, hk, ?_⟩
    have hpr := prune_cache_keys st.cache (keyAdd st.keys child.typ) st.current k
    have hrender :
        (renderStep st child (some m)).1.cache = cacheErase st.cache k ∧
        (renderStep st child (some m)).1.keys = keyErase (keyAdd st.keys child.typ) k := by
      simp only [renderStep, hc, hgt, hk, if_pos]
      exact ⟨hpr.1, hpr.2⟩
    refine ⟨hrender.2, hrender.1, ?_, ?_⟩
    · rw [hrender.2]
      unfold keyErase
      intro hmem
      have := (List.Nodup.mem_erase_iff (keyAdd_nodup _ _ hkn)).mp hmem
      exact this.1 rfl
    · rw [hrender.1]
      exact cacheGet_cacheErase st.cache k hcn
  · intro st child m k cached c hc hgt hk hcached hcur hdiff hcoh1 hcoh2
    have hevents :
        (updateCycle st child (some m)).2
          = (pruneCacheEntry st.cache (keyAdd st.keys child.typ) st.current k).2.2.2
            ++ (match (pruneCacheEntry st.cache (keyAdd st.keys child.typ) st.current k).2.2.1 with
                | none => []
                | some v => if v.typ ≠ child.typ then [rendererUnmount v] else []) := by
      simp only [updateCycle, renderStep, hc, hgt, hk, if_pos]
    by_cases ht : cached.typ = c.typ
    · have hprune :
          pruneCacheEntry st.cache (keyAdd st.keys child.typ) st.current k
            = (cacheErase st.cache k, keyErase (keyAdd st.keys child.typ) k,
               some (resetShapeFlag c), []) := by
        unfold pruneCacheEntry
        rw [hcached, hcur]
        simp [ht]
      rw [hevents, hprune]
      simp only [List.nil_append]
      have htyp : (resetShapeFlag c).typ ≠ child.typ := by
        rw [resetShapeFlag_typ]
        exact hdiff
      simp only [htyp, if_pos, ne_eq, not_false_eq_true, ite_true]
      rw [rendererUnmount_reset]
      rw [hcoh1 ht]
      simp
    · have hprune :
          pruneCacheEntry st.cache (keyAdd st.keys child.typ) st.current k
            = (cacheErase st.cache k, keyErase (keyAdd st.keys child.typ) k,
               some c, [.unmounted cached.comp]) := by
        unfold pruneCacheEntry
        rw [hcached, hcur]
        simp [ht]
      rw [hevents, hprune]
      simp only
      rw [if_pos hdiff]
      have hcomp := hcoh2 ht
      constructor
      · simp
      · intro hmem
        rcases List.mem_append.mp hmem with h | h
        · simp at h
        · have hsing := List.mem_singleton.mp h
          unfold rendererUnmount at hsing
          by_cases hflag : c.shapeFlag &&& SHOULD_KEEP_ALIVE ≠ 0
          · rw [if_pos hflag] at hsing
            injection hsing with he
            exact hcomp he
          · rw [if_neg hflag] at hsing
            exact KEvent.noConfusion hsing

/-- Witness for C7 at the claim's concrete scenario: a keep-alive cache
with max 1 holding component A (type 0, instance 10), then rendering
component B (type 1, instance 11): A's key leaves the cache and A's
instance is really unmounted, never deactivated. -/
theorem keepalive_lru_eviction_witness :
    KEvent.unmounted 10 ∈
      (updateCycle ⟨[(0, ⟨0, 10, 256⟩)], [0], some ⟨0, 10, 256⟩⟩ ⟨1, 11, 4⟩ (some 1)).2 ∧
    KEvent.deactivated 10 ∉
      (updateCycle ⟨[(0, ⟨0, 10, 256⟩)], [0], some ⟨0, 10, 256⟩⟩ ⟨1, 11, 4⟩ (some 1)).2 ∧
    cacheGet (updateCycle ⟨[(0, ⟨0, 10, 256⟩)], [0], some ⟨0, 10, 256⟩⟩
        ⟨1, 11, 4⟩ (some 1)).1.cache 0 = none := by
  have h := keepalive_lru_eviction.2.2.2
    ⟨[(0, ⟨0, 10, 256⟩)], [0], some ⟨0, 10, 256⟩⟩ ⟨1, 11, 4⟩ 1 0
    ⟨0, 10, 256⟩ ⟨0, 10, 256⟩ rfl (by decide) rfl rfl rfl (by decide)
    (fun _ => rfl) (fun hne => absurd rfl hne)
  exact ⟨h.1, h.2, by decide⟩

end KeepAliveModel

/- ----------------------------------------------------------------- -/
/- Section: scheduler flush ordering (scheduler.ts: queue sorting in -/
/- flushJobs, flushPreFlushCbs, invalidateJob, the active-flag gate). -/
/- The production build is modelled (the dev-only recursion check is  -/
/- a NOOP there); the post-flush queue is not involved in this claim. -/
/- ----------------------------------------------------------------- -/

namespace FlushModel

/-- Commands a running job or pre-flush callback may issue against the
scheduler: setting another job's `active` flag to `false` (as component
unmount does), removing a queued job via `invalidateJob`, queueing a
pre-flush callback, or nothing. -/
inductive Cmd
  | deactivate (jid : Nat)
  | invalidate (jid : Nat)
  | queuePre (cid : Nat)
  | nop
deriving DecidableEq, Repr

/-- A main-queue scheduler job: its identity, its ordering id
(`job.id`, absent for id-less jobs which sort last), and the scheduler
commands its execution performs. -/
structure Job5 where
  jid : Nat
  oid : Option Nat
  body : List Cmd
deriving DecidableEq, Repr

/-- Comparison of ordering ids as `getId` computes them
(`job.id == null ? Infinity : job.id`). -/
def leB : Option Nat → Option Nat → Bool
  | none, none => true
  | none, some _ => false
  | some _, none => true
  | some x, some y => x ≤ y

def leId (a b : Job5) : Bool := leB a.oid b.oid

/-- Scheduler state: the main queue, the pending pre-flush callback ids
and the ids of deactivated jobs (`active === false`). -/
structure S5 where
  queue : List Job5
  pendingPre : List Nat
  deactivated : List Nat
deriving DecidableEq, Repr

/-- A flush log entry: a pre-flush callback invocation, or a main-queue
job execution (with its ordering id). -/
inductive Entry5
  | pre (cid : Nat)
  | main (jid : Nat) (oid : Option Nat)
deriving DecidableEq, Repr

def Entry5.isPre : Entry5 → Bool
  | .pre _ => true
  | _ => false

/-- Environment resolving a pre-flush callback id to its commands and
its `allowRecurse` flag. -/
abbrev PreEnv := Nat → List Cmd × Bool

/-- JS `new Set(l)` insertion semantics on callback ids: add each
element in order, skipping those already present. -/
def predup (l : List Nat) : List Nat :=
  l.foldl (fun acc x => if x ∈ acc then acc else acc ++ [x]) []

/-- From scheduler.ts `invalidateJob`: look the job up in the queue and
splice it out only when it sits strictly after the current flush
index. -/
def invalidateJob (queue : List Job5) (flushIndex : Nat) (j : Nat) : List Job5 :=
  let i := queue.findIdx (fun jb => jb.jid = j)
  if i < queue.length ∧ flushIndex < i then queue.eraseIdx i else queue

/-- Execute one command issued from inside a pre-flush callback.
`active` is `activePreFlushCbs`, `idx` the running callback's index;
the main loop has not started, so `invalidateJob` sees flush index 0.
`queuePreFlushCb` skips a callback already present in the active queue
at or after the current index (one past it for `allowRecurse`). -/
def execPreCmd (preEnv : PreEnv) (active : List Nat) (idx : Nat) (st : S5) :
    Cmd → S5
  | .nop => st
  | .deactivate j => { st with deactivated := st.deactivated ++ [j] }
  | .invalidate j => { st with queue := invalidateJob st.queue 0 j }
  | .queuePre c2 =>
      let start := if (preEnv c2).2 then idx + 1 else idx
      if c2 ∈ active.drop start then st
      else { st with pendingPre := st.pendingPre ++ [c2] }

/-- Execute one command issued from a main-queue job running at
`flushIndex` (no active pre queue, so a queued pre callback is appended
to the pending queue unconditionally). -/
def execMainCmd (flushIndex : Nat) (st : S5) : Cmd → S5
  | .nop => st
  | .deactivate j => { st with deactivated := st.deactivated ++ [j] }
  | .invalidate j => { st with queue := invalidateJob st.queue flushIndex j }
  | .queuePre c2 => { st with pendingPre := st.pendingPre ++ [c2] }

/-- The loop of `flushPreFlushCbs` over the deduplicated active list;
returns the final state and the pre entries logged.  The fuel argument
(instantiated with the active list's length) bounds the walk. -/
def preLoop (preEnv : PreEnv) (active : List Nat) :
    Nat → Nat → S5 → S5 × List Entry5
  | 0, _, st => (st, [])
  | fuel + 1, idx, st =>
    if h : idx < active.length then
      let cid := active.get ⟨idx, h⟩
      let st1 := (preEnv cid).1.foldl (execPreCmd preEnv active idx) st
      let r := preLoop preEnv active fuel (idx + 1) st1
      (r.1, .pre cid :: r.2)
    else (st, [])

/-- `flushPreFlushCbs`: drain the pending pre queue to quiescence; each
round deduplicates the pending callbacks into an active list, runs them
(they may queue more pre callbacks), and recurses until the pending
queue is empty. -/
def flushPre (preEnv : PreEnv) : Nat → S5 → Option (S5 × List Entry5)
  | 0, _ => none
  | fuel + 1, st =>
    if st.pendingPre.isEmpty then some (st, [])
    else
      let active := predup st.pendingPre
      let r1 := preLoop preEnv active active.length 0 { st with pendingPre := [] }
      match flushPre preEnv fuel r1.1 with
      | none => none
      | some (st2, l2) => some (st2, r1.2 ++ l2)

lemma invalidateJob_sublist (q : List Job5) (fi j : Nat) :
    (invalidateJob q fi j).Sublist q := by
  unfold invalidateJob
  by_cases h : (q.findIdx (fun jb => jb.jid = j)) < q.length ∧
      fi < q.findIdx (fun jb => jb.jid = j)
  · rw [if_pos h]
    exact List.eraseIdx_sublist q _
  · rw [if_neg h]

lemma execMainCmd_sublist (fi : Nat) (st : S5) (c : Cmd) :
    (execMainCmd fi st c).queue.Sublist st.queue := by
  cases c with
  | nop => exact List.Sublist.refl _
  | deactivate j => exact List.Sublist.refl _
  | invalidate j => exact invalidateJob_sublist _ _ _
  | queuePre c2 => exact List.Sublist.refl _

lemma foldl_execMainCmd_sublist (cmds : List Cmd) (fi : Nat) (st : S5) :
    ((cmds.foldl (execMainCmd fi) st)).queue.Sublist st.queue := by
  induction cmds generalizing st with
  | nil => exact List.Sublist.refl _
  | cons c cs ih =>
    exact (ih (execMainCmd fi st c)).trans (execMainCmd_sublist fi st c)

/-- The main loop of `flushJobs`: walk the queue by index; a job whose
`active` flag was set to `false` is skipped; every other job executes
its commands (which may deactivate or invalidate later jobs).  Returns
the final state and the executed jobs as (identity, ordering id) pairs
in execution order.  The fuel argument (instantiated with the queue
length, which never grows) bounds the walk. -/
def mainLoop : Nat → S5 → Nat → S5 × List (Nat × Option Nat)
  | 0, st, _ => (st, [])
  | fuel + 1, st, fi =>
    if h : fi < st.queue.length then
      let job := st.queue.get ⟨fi, h⟩
      if job.jid ∈ st.deactivated then
        mainLoop fuel st (fi + 1)
      else
        let st2 := job.body.foldl (execMainCmd fi) st
        let r := mainLoop fuel st2 (fi + 1)
        (r.1, (job.jid, job.oid) :: r.2)
    else (st, [])

/-- Stable insertion of a job into a sorted queue: the new job goes in
front of the first element it compares less-or-equal to.  JS
`Array.prototype.sort` is stable; insertion sort realizes the same
reordering for the scheduler's comparator. -/
def insertJob (j : Job5) : List Job5 → List Job5
  | [] => [j]
  | k :: t => if leId j k then j :: k :: t else k :: insertJob j t

/-- The `queue.sort((a, b) => getId(a) - getId(b))` step of flushJobs. -/
def sortJobs : List Job5 → List Job5
  | [] => []
  | j :: rest => insertJob j (sortJobs rest)

lemma leB_total (a b : Option Nat) : leB a b = true ∨ leB b a = true := by
  rcases a with _ | x <;> rcases b with _ | y <;> simp [leB] <;> omega

lemma leB_trans (a b c : Option Nat) (h1 : leB a b = true) (h2 : leB b c = true) :
    leB a c = true := by
  rcases a with _ | x <;> rcases b with _ | y <;> rcases c with _ | z <;>
    simp_all [leB] <;> omega

lemma leId_total (a b : Job5) : leId a b = true ∨ leId b a = true :=
  leB_total a.oid b.oid

lemma leId_trans (a b c : Job5) (h1 : leId a b = true) (h2 : leId b c = true) :
    leId a c = true :=
  leB_trans a.oid b.oid c.oid h1 h2

lemma insertJob_perm (j : Job5) (l : List Job5) :
    (insertJob j l).Perm (j :: l) := by
  induction l with
  | nil => exact List.Perm.refl _
  | cons k t ih =>
    unfold insertJob
    by_cases h : leId j k
    · rw [if_pos h]
    · rw [if_neg h]
      exact (List.Perm.cons k ih).trans (List.Perm.swap j k t)

lemma sortJobs_perm (l : List Job5) : (sortJobs l).Perm l := by
  induction l with
  | nil => exact List.Perm.refl _
  | cons j t ih =>
    unfold sortJobs
    exact (insertJob_perm j (sortJobs t)).trans (List.Perm.cons j ih)

lemma insertJob_sorted (j : Job5) (l : List Job5)
    (hs : l.Pairwise (fun a b => leId a b = true)) :
    (insertJob j l).Pairwise (fun a b => leId a b = true) := by
  induction l with
  | nil => simp [insertJob]
  | cons k t ih =>
    rcases List.pairwise_cons.mp hs with ⟨hk, ht⟩
    unfold insertJob
    by_cases h : leId j k
    · rw [if_pos h]
      refine List.pairwise_cons.mpr ⟨?_, hs⟩
      intro x hx
      rcases List.mem_cons.mp hx with hx | hx
      · exact hx ▸ h
      · exact leId_trans j k x h (hk x hx)
    · rw [if_neg h]
      have hkj : leId k j = true := by
        rcases leId_total j k with h1 | h1
        · exact absurd h1 h
        · exact h1
      refine List.pairwise_cons.mpr ⟨?_, ih ht⟩
      intro x hx
      have hx2 := (insertJob_perm j t).mem_iff.mp hx
      rcases List.mem_cons.mp hx2 with hx2 | hx2
      · exact hx2 ▸ hkj
      · exact hk x hx2

lemma sortJobs_sorted (l : List Job5) :
    (sortJobs l).Pairwise (fun a b => leId a b = true) := by
  induction l with
  | nil => simp [sortJobs]
  | cons j t ih =>
    unfold sortJobs
    exact insertJob_sorted j (sortJobs t) ih

lemma take_eraseIdx_of_le {α : Type _} (l : List α) (i n : Nat) (h : n ≤ i) :
    (l.eraseIdx i).take n = l.take n := by
  induction l generalizing i n with
  | nil => simp [List.eraseIdx]
  | cons a t ih =>
    cases i with
    | zero =>
      have hn : n = 0 := Nat.le_zero.mp h
      subst hn
      simp
    | succ i =>
      cases n with
      | zero => simp
      | succ m =>
        show a :: (t.eraseIdx i).take m = a :: t.take m
        rw [ih i m (Nat.le_of_succ_le_succ h)]

lemma drop_eraseIdx_of_le {α : Type _} (l : List α) (i n : Nat) (h : n ≤ i) :
    (l.eraseIdx i).drop n = (l.drop n).eraseIdx (i - n) := by
  induction l generalizing i n with
  | nil => simp [List.eraseIdx]
  | cons a t ih =>
    cases i with
    | zero =>
      have hn : n = 0 := Nat.le_zero.mp h
      subst hn
      simp
    | succ i =>
      cases n with
      | zero => simp
      | succ m =>
        show (t.eraseIdx i).drop m = (t.drop m).eraseIdx (i + 1 - (m + 1))
        rw [ih i m (Nat.le_of_succ_le_succ h)]
        congr 1
        omega

lemma invalidateJob_take (q : List Job5) (fi j : Nat) :
    (invalidateJob q fi j).take (fi + 1) = q.take (fi + 1) := by
  unfold invalidateJob
  by_cases h : (q.findIdx (fun jb => jb.jid = j)) < q.length ∧
      fi < q.findIdx (fun jb => jb.jid = j)
  · rw [if_pos h]
    exact take_eraseIdx_of_le q _ _ h.2
  · rw [if_neg h]

lemma invalidateJob_drop_sub (q : List Job5) (fi j : Nat) :
    ((invalidateJob q fi j).drop (fi + 1)).Sublist (q.drop (fi + 1)) := by
  unfold invalidateJob
  by_cases h : (q.findIdx (fun jb => jb.jid = j)) < q.length ∧
      fi < q.findIdx (fun jb => jb.jid = j)
  · rw [if_pos h]
    rw [drop_eraseIdx_of_le q _ _ h.2]
    exact List.eraseIdx_sublist _ _
  · rw [if_neg h]

lemma execMainCmd_take (fi : Nat) (st : S5) (c : Cmd) :
    (execMainCmd fi st c).queue.take (fi + 1) = st.queue.take (fi + 1) := by
  cases c with
  | nop => rfl
  | deactivate j => rfl
  | invalidate j => exact invalidateJob_take _ _ _
  | queuePre c2 => rfl

lemma execMainCmd_drop_sub (fi : Nat) (st : S5) (c : Cmd) :
    ((execMainCmd fi st c).queue.drop (fi + 1)).Sublist (st.queue.drop (fi + 1)) := by
  cases c with
  | nop => exact List.Sublist.refl _
  | deactivate j => exact List.Sublist.refl _
  | invalidate j => exact invalidateJob_drop_sub _ _ _
  | queuePre c2 => exact List.Sublist.refl _

lemma execMainCmd_deact (fi : Nat) (st : S5) (c : Cmd) (j : Nat)
    (h : j ∈ st.deactivated) : j ∈ (execMainCmd fi st c).deactivated := by
  cases c with
  | nop => exact h
  | deactivate k => exact List.mem_append_left _ h
  | invalidate k => exact h
  | queuePre c2 => exact h

lemma foldl_execMainCmd_take (cmds : List Cmd) (fi : Nat) (st : S5) :
    ((cmds.foldl (execMainCmd fi) st)).queue.take (fi + 1) = st.queue.take (fi + 1) := by
  induction cmds generalizing st with
  | nil => rfl
  | cons c cs ih => rw [List.foldl_cons, ih, execMainCmd_take]

lemma foldl_execMainCmd_drop_sub (cmds : List Cmd) (fi : Nat) (st : S5) :
    (((cmds.foldl (execMainCmd fi) st)).queue.drop (fi + 1)).Sublist
      (st.queue.drop (fi + 1)) := by
  induction cmds generalizing st with
  | nil => exact List.Sublist.refl _
  | cons c cs ih =>
    exact (ih (execMainCmd fi st c)).trans (execMainCmd_drop_sub fi st c)

lemma foldl_execMainCmd_deact (cmds : List Cmd) (fi : Nat) (st : S5) (j : Nat)
    (h : j ∈ st.deactivated) :
    j ∈ ((cmds.foldl (execMainCmd fi) st)).deactivated := by
  induction cmds generalizing st with
  | nil => exact h
  | cons c cs ih => exact ih _ (execMainCmd_deact fi st c j h)

lemma pairwise_get_drop {α : Type _} {R : α → α → Prop} (l : List α)
    (hs : l.Pairwise R) (i : Nat) (h : i < l.length) :
    ∀ x ∈ l.drop (i + 1), R (l.get ⟨i, h⟩) x := by
  intro x hx
  obtain ⟨k, hk, hget⟩ := List.mem_iff_getElem.mp hx
  have hkl : i + 1 + k < l.length := by
    rw [List.length_drop] at hk
    omega
  have hg2 : (l.drop (i + 1))[k] = l[i + 1 + k] := List.getElem_drop l
  have := List.pairwise_iff_get.mp hs ⟨i, h⟩ ⟨i + 1 + k, hkl⟩ (by simp; omega)
  rw [← hget, hg2]
  simpa using this

lemma take_getElem_eq {α : Type _} (l1 l2 : List α) (fi : Nat)
    (heq : l1.take (fi + 1) = l2.take (fi + 1))
    (h1 : fi < l1.length) (h2 : fi < l2.length) : l1[fi] = l2[fi] := by
  have t1 : (l1.take (fi + 1))[fi]? = l1[fi]? := by
    rw [List.getElem?_take, if_pos (by omega : fi < fi + 1)]
  have t2 : (l2.take (fi + 1))[fi]? = l2[fi]? := by
    rw [List.getElem?_take, if_pos (by omega : fi < fi + 1)]
  have q1 : l1[fi]? = l2[fi]? := by
    rw [← t1, ← t2, heq]
  rw [List.getElem?_eq_getElem h1, List.getElem?_eq_getElem h2] at q1
  exact Option.some.inj q1

lemma mainLoop_deactivated (fuel : Nat) : ∀ (st : S5) (fi j : Nat) (o : Option Nat),
    j ∈ st.deactivated → (j, o) ∉ (mainLoop fuel st fi).2 := by
  induction fuel with
  | zero =>
    intro st fi j o hj
    simp [mainLoop]
  | succ k ih =>
    intro st fi j o hj
    rw [mainLoop]
    by_cases h : fi < st.queue.length
    · rw [dif_pos h]
      by_cases hd : (st.queue.get ⟨fi, h⟩).jid ∈ st.deactivated
      · rw [if_pos hd]
        exact ih st (fi + 1) j o hj
      · rw [if_neg hd]
        simp only
        intro hmem
        rcases List.mem_cons.mp hmem with he | he
        · have : j = (st.queue.get ⟨fi, h⟩).jid := (Prod.mk.injEq _ _ _ _ ▸ he).1
          exact hd (this ▸ hj)
        · exact ih _ (fi + 1) j o (foldl_execMainCmd_deact _ _ _ _ hj) he
    · rw [dif_neg h]
      simp

lemma mainLoop_absent (fuel : Nat) : ∀ (st : S5) (fi j : Nat) (o : Option Nat),
    j ∉ (st.queue.drop fi).map Job5.jid → (j, o) ∉ (mainLoop fuel st fi).2 := by
  induction fuel with
  | zero =>
    intro st fi j o hj
    simp [mainLoop]
  | succ k ih =>
    intro st fi j o hj
    rw [mainLoop]
    by_cases h : fi < st.queue.length
    · rw [dif_pos h]
      have hcons : st.queue[fi] :: st.queue.drop (fi + 1) = st.queue.drop fi :=
        List.getElem_cons_drop st.queue fi h
      have hj1 : j ≠ (st.queue.get ⟨fi, h⟩).jid := by
        intro he
        apply hj
        rw [← hcons]
        simp only [List.map_cons, List.mem_cons]
        exact Or.inl (by simpa using he)
      have hj2 : j ∉ (st.queue.drop (fi + 1)).map Job5.jid := by
        intro he
        apply hj
        rw [← hcons]
        simp only [List.map_cons, List.mem_cons]
        exact Or.inr he
      by_cases hd : (st.queue.get ⟨fi, h⟩).jid ∈ st.deactivated
      · rw [if_pos hd]
        exact ih st (fi + 1) j o hj2
      · rw [if_neg hd]
        simp only
        intro hmem
        rcases List.mem_cons.mp hmem with he | he
        · exact hj1 (Prod.mk.injEq _ _ _ _ ▸ he).1
        · have hsub := foldl_execMainCmd_drop_sub
            (st.queue.get ⟨fi, h⟩).body fi st
          refine ih _ (fi + 1) j o ?_ he
          intro hmem2
          exact hj2 ((hsub.map Job5.jid).subset hmem2)
    · rw [dif_neg h]
      simp

lemma mainLoop_sorted (fuel : Nat) : ∀ (st : S5) (fi : Nat),
    st.queue.Pairwise (fun a b => leId a b = true) →
    (∀ p ∈ (mainLoop fuel st fi).2, ∃ jb ∈ st.queue.drop fi, p = (jb.jid, jb.oid)) ∧
    (mainLoop fuel st fi).2.Pairwise (fun a b => leB a.2 b.2 = true) := by
  induction fuel with
  | zero =>
    intro st fi hs
    simp [mainLoop]
  | succ k ih =>
    intro st fi hs
    rw [mainLoop]
    by_cases h : fi < st.queue.length
    · rw [dif_pos h]
      have hcons : st.queue[fi] :: st.queue.drop (fi + 1) = st.queue.drop fi :=
        List.getElem_cons_drop st.queue fi h
      by_cases hd : (st.queue.get ⟨fi, h⟩).jid ∈ st.deactivated
      · rw [if_pos hd]
        obtain ⟨ha, hb⟩ := ih st (fi + 1) hs
        refine ⟨?_, hb⟩
        intro p hp
        obtain ⟨jb, hjb, he⟩ := ha p hp
        refine ⟨jb, ?_, he⟩
        rw [← hcons]
        exact List.mem_cons_of_mem _ hjb
      · rw [if_neg hd]
        simp only
        set job := st.queue.get ⟨fi, h⟩ with hjob
        set st2 := job.body.foldl (execMainCmd fi) st with hst2
        have hsub : st2.queue.Sublist st.queue := foldl_execMainCmd_sublist _ _ _
        have hs2 : st2.queue.Pairwise (fun a b => leId a b = true) :=
          hs.sublist hsub
        obtain ⟨ha, hb⟩ := ih st2 (fi + 1) hs2
        have htake : st2.queue.take (fi + 1) = st.queue.take (fi + 1) :=
          foldl_execMainCmd_take _ _ _
        have hfi2 : fi < st2.queue.length := by
          have hl1 : (st2.queue.take (fi + 1)).length = (st.queue.take (fi + 1)).length := by
            rw [htake]
          simp [List.length_take] at hl1
          omega
        have hdropsub : (st2.queue.drop (fi + 1)).Sublist (st.queue.drop (fi + 1)) :=
          foldl_execMainCmd_drop_sub _ _ _
        constructor
        · intro p hp
          rcases List.mem_cons.mp hp with he | he
          · refine ⟨job, ?_, he⟩
            rw [← hcons]
            exact List.mem_cons_self _ _
          · obtain ⟨jb, hjb, hee⟩ := ha p he
            refine ⟨jb, ?_, hee⟩
            rw [← hcons]
            exact List.mem_cons_of_mem _ (hdropsub.subset hjb)
        · refine List.pairwise_cons.mpr ⟨?_, hb⟩
          intro q hq
          obtain ⟨jb, hjb, hee⟩ := ha q hq
          have hjb2 : jb ∈ st.queue.drop (fi + 1) := hdropsub.subset hjb
          have hrel := pairwise_get_drop st.queue hs fi h jb hjb2
          subst hee
          exact hrel
    · rw [dif_neg h]
      simp

lemma map_eraseIdx {α β : Type _} (f : α → β) (l : List α) (i : Nat) :
    (l.eraseIdx i).map f = (l.map f).eraseIdx i := by
  induction l generalizing i with
  | nil => simp [List.eraseIdx]
  | cons a t ih =>
    cases i with
    | zero => simp
    | succ i =>
      show f a :: (t.eraseIdx i).map f = f a :: (t.map f).eraseIdx i
      rw [ih]

lemma absent_keeps (fi : Nat) (st : S5) (c : Cmd) (j : Nat)
    (h : j ∉ st.queue.map Job5.jid) :
    j ∉ (execMainCmd fi st c).queue.map Job5.jid :=
  fun hm => h (((execMainCmd_sublist fi st c).map Job5.jid).subset hm)

lemma foldl_absent_keeps (cmds : List Cmd) (fi : Nat) (st : S5) (j : Nat)
    (h : j ∉ st.queue.map Job5.jid) :
    j ∉ ((cmds.foldl (execMainCmd fi) st)).queue.map Job5.jid :=
  fun hm => h (((foldl_execMainCmd_sublist cmds fi st).map Job5.jid).subset hm)

lemma invalidate_removes (fi : Nat) (st : S5) (j : Nat)
    (hnd : (st.queue.map Job5.jid).Nodup)
    (htake : j ∉ (st.queue.take (fi + 1)).map Job5.jid) :
    j ∉ (execMainCmd fi st (.invalidate j)).queue.map Job5.jid := by
  by_cases hj : j ∈ st.queue.map Job5.jid
  · obtain ⟨jb, hjb, hje⟩ := List.mem_map.mp hj
    have hex : ∃ x ∈ st.queue, (fun jb => decide (jb.jid = j)) x = true :=
      ⟨jb, hjb, by simp [hje]⟩
    have hi0 : st.queue.findIdx (fun jb => jb.jid = j) < st.queue.length :=
      List.findIdx_lt_length_of_exists hex
    set i0 := st.queue.findIdx (fun jb => jb.jid = j) with hi0def
    have hp : (st.queue.get ⟨i0, hi0⟩).jid = j := by
      have := List.findIdx_getElem (w := hi0)
      simpa using this
    have hfi : fi < i0 := by
      by_contra hle
      apply htake
      have hi0lt : i0 < fi + 1 := by omega
      have hmem : st.queue[i0] ∈ st.queue.take (fi + 1) := by
        have hlt : i0 < (st.queue.take (fi + 1)).length := by
          simp [List.length_take]
          omega
        have he : (st.queue.take (fi + 1))[i0] = st.queue[i0] := by
          rw [List.getElem_take]
        rw [← he]
        exact List.getElem_mem _
      exact List.mem_map.mpr ⟨st.queue[i0], hmem, hp⟩
    have hexec : (execMainCmd fi st (.invalidate j)).queue = st.queue.eraseIdx i0 := by
      show invalidateJob st.queue fi j = st.queue.eraseIdx i0
      unfold invalidateJob
      rw [← hi0def, if_pos ⟨hi0, hfi⟩]
    rw [hexec, map_eraseIdx]
    have hli0len : i0 < (st.queue.map Job5.jid).length := by simp; omega
    have hli0 : (st.queue.map Job5.jid)[i0] = j := by
      rw [List.getElem_map]
      exact hp
    have hcount : (st.queue.map Job5.jid).count j ≤ 1 :=
      List.nodup_iff_count_le_one.mp hnd j
    have hsplit : (st.queue.map Job5.jid).eraseIdx i0
        = (st.queue.map Job5.jid).take i0 ++ (st.queue.map Job5.jid).drop (i0 + 1) :=
      List.eraseIdx_eq_take_drop_succ _ i0
    have hdecomp : st.queue.map Job5.jid
        = (st.queue.map Job5.jid).take i0
          ++ (st.queue.map Job5.jid)[i0] :: (st.queue.map Job5.jid).drop (i0 + 1) := by
      conv_lhs => rw [← List.take_append_drop i0 (st.queue.map Job5.jid)]
      rw [← List.getElem_cons_drop (st.queue.map Job5.jid) i0 hli0len]
    intro hmem
    have hcnt2 : (st.queue.map Job5.jid).count j
        = ((st.queue.map Job5.jid).take i0).count j
          + (1 + ((st.queue.map Job5.jid).drop (i0 + 1)).count j) := by
      conv_lhs => rw [hdecomp]
      rw [List.count_append, List.count_cons]
      rw [hli0]
      simp
      omega
    have hcnt3 : ((st.queue.map Job5.jid).take i0).count j
        + ((st.queue.map Job5.jid).drop (i0 + 1)).count j = 0 := by omega
    have hnot : j ∉ (st.queue.map Job5.jid).eraseIdx i0 := by
      rw [hsplit]
      intro hm
      rcases List.mem_append.mp hm with hm | hm
      · have := List.count_pos_iff_mem.mpr hm
        omega
      · have := List.count_pos_iff_mem.mpr hm
        omega
    exact hnot hmem
  · exact absent_keeps fi st _ j hj

lemma foldl_invalidate (fi j : Nat) : ∀ (cmds : List Cmd) (st : S5),
    (st.queue.map Job5.jid).Nodup →
    j ∉ (st.queue.take (fi + 1)).map Job5.jid →
    Cmd.invalidate j ∈ cmds →
    j ∉ ((cmds.foldl (execMainCmd fi) st)).queue.map Job5.jid := by
  intro cmds
  induction cmds with
  | nil =>
    intro st _ _ hmem
    simp at hmem
  | cons c cs ih =>
    intro st hnd htake hmem
    by_cases hc : c = Cmd.invalidate j
    · subst hc
      rw [List.foldl_cons]
      exact foldl_absent_keeps cs fi _ j (invalidate_removes fi st j hnd htake)
    · have hmem2 : Cmd.invalidate j ∈ cs := by
        rcases List.mem_cons.mp hmem with he | hm
        · exact absurd he.symm hc
        · exact hm
      rw [List.foldl_cons]
      refine ih (execMainCmd fi st c) ?_ ?_ hmem2
      · exact hnd.sublist ((execMainCmd_sublist fi st c).map Job5.jid)
      · rw [execMainCmd_take]
        exact htake

lemma mainLoop_invalidate (fuel : Nat) (st : S5) (fi : Nat)
    (h : fi < st.queue.length) (j : Nat) (o : Option Nat)
    (hnd : (st.queue.map Job5.jid).Nodup)
    (hact : (st.queue.get ⟨fi, h⟩).jid ∉ st.deactivated)
    (hbody : Cmd.invalidate j ∈ (st.queue.get ⟨fi, h⟩).body)
    (htake : j ∉ (st.queue.take (fi + 1)).map Job5.jid) :
    (j, o) ∉ (mainLoop fuel st fi).2 := by
  cases fuel with
  | zero => simp [mainLoop]
  | succ k =>
    rw [mainLoop, dif_pos h, if_neg hact]
    simp only
    intro hmem
    rcases List.mem_cons.mp hmem with he | he
    · have hjid : j = (st.queue.get ⟨fi, h⟩).jid := (Prod.mk.injEq _ _ _ _ ▸ he).1
      apply htake
      have hmemtake : st.queue[fi] ∈ st.queue.take (fi + 1) := by
        have hlt : fi < (st.queue.take (fi + 1)).length := by
          simp [List.length_take]
          omega
        have he2 : (st.queue.take (fi + 1))[fi] = st.queue[fi] := by
          rw [List.getElem_take]
        rw [← he2]
        exact List.getElem_mem _
      exact List.mem_map.mpr ⟨st.queue[fi], hmemtake, hjid.symm⟩
    · set st2 := (st.queue.get ⟨fi, h⟩).body.foldl (execMainCmd fi) st with hst2
      have habs : j ∉ st2.queue.map Job5.jid :=
        foldl_invalidate fi j _ st hnd htake hbody
      have habs2 : j ∉ (st2.queue.drop (fi + 1)).map Job5.jid := by
        intro hm
        exact habs (((st2.queue.drop_sublist (fi + 1)).map Job5.jid).subset hm)
      exact mainLoop_absent k st2 (fi + 1) j o habs2 he

lemma execPreCmd_deact (preEnv : PreEnv) (active : List Nat) (idx : Nat)
    (st : S5) (c : Cmd) (j : Nat) (h : j ∈ st.deactivated) :
    j ∈ (execPreCmd preEnv active idx st c).deactivated := by
  cases c with
  | nop => exact h
  | deactivate k => exact List.mem_append_left _ h
  | invalidate k => exact h
  | queuePre c2 =>
    unfold execPreCmd
    by_cases hm : c2 ∈ active.drop (if (preEnv c2).2 then idx + 1 else idx) <;>
      simp [hm, h]

lemma foldl_execPreCmd_deact (preEnv : PreEnv) (active : List Nat) (idx : Nat)
    (cmds : List Cmd) (st : S5) (j : Nat) (h : j ∈ st.deactivated) :
    j ∈ ((cmds.foldl (execPreCmd preEnv active idx) st)).deactivated := by
  induction cmds generalizing st with
  | nil => exact h
  | cons c cs ih => exact ih _ (execPreCmd_deact preEnv active idx st c j h)

lemma preLoop_spec (preEnv : PreEnv) (active : List Nat) :
    ∀ (fuel idx : Nat) (st : S5),
      (∀ e ∈ (preLoop preEnv active fuel idx st).2, e.isPre = true) ∧
      (∀ j ∈ st.deactivated, j ∈ (preLoop preEnv active fuel idx st).1.deactivated) := by
  intro fuel
  induction fuel with
  | zero =>
    intro idx st
    exact ⟨by simp [preLoop], fun j hj => hj⟩
  | succ k ih =>
    intro idx st
    rw [preLoop]
    by_cases h : idx < active.length
    · rw [dif_pos h]
      simp only
      obtain ⟨ha, hb⟩ := ih (idx + 1)
        ((preEnv (active.get ⟨idx, h⟩)).1.foldl (execPreCmd preEnv active idx) st)
      refine ⟨?_, ?_⟩
      · intro e he
        rcases List.mem_cons.mp he with he | he
        · subst he
          rfl
        · exact ha e he
      · intro j hj
        exact hb j (foldl_execPreCmd_deact _ _ _ _ _ _ hj)
    · rw [dif_neg h]
      exact ⟨by simp, fun j hj => hj⟩

lemma flushPre_spec (preEnv : PreEnv) : ∀ (fuel : Nat) (st st1 : S5)
    (pl : List Entry5), flushPre preEnv fuel st = some (st1, pl) →
    st1.pendingPre = [] ∧ (∀ e ∈ pl, e.isPre = true) ∧
    (∀ j ∈ st.deactivated, j ∈ st1.deactivated) := by
  intro fuel
  induction fuel with
  | zero =>
    intro st st1 pl h
    exact Option.noConfusion h
  | succ k ih =>
    intro st st1 pl h
    rw [flushPre] at h
    by_cases he : st.pendingPre.isEmpty
    · rw [if_pos he] at h
      injection h with h
      injection h with h1 h2
      subst h1 h2
      refine ⟨List.isEmpty_iff.mp he, by simp, fun j hj => hj⟩
    · rw [if_neg he] at h
      simp only at h
      set active := predup st.pendingPre with hact
      set r1 := preLoop preEnv active active.length 0 { st with pendingPre := [] }
        with hr1
      cases hrec : flushPre preEnv k r1.1 with
      | none =>
        rw [hrec] at h
        exact Option.noConfusion h
      | some pr =>
        rcases pr with ⟨st2, l2⟩
        rw [hrec] at h
        injection h with h
        injection h with h1 h2
        subst h1 h2
        obtain ⟨iha, ihb, ihc⟩ := ih r1.1 st2 l2 hrec
        refine ⟨iha, ?_, ?_⟩
        · intro e hee
          rcases List.mem_append.mp hee with hm | hm
          · exact (preLoop_spec preEnv active active.length 0
              { st with pendingPre := [] }).1 e hm
          · exact ihb e hm
        · intro j hj
          refine ihc j ?_
          exact (preLoop_spec preEnv active active.length 0
            { st with pendingPre := [] }).2 j hj

lemma pairwise_of_split {α : Type _} {R : α → α → Prop} (l A B C : List α)
    (x y : α) (hp : l.Pairwise R) (hsplit : l = A ++ (x :: (B ++ (y :: C)))) :
    R x y := by
  have h1 : [x, y].Sublist (x :: (B ++ (y :: C))) := by
    refine List.Sublist.cons₂ x ?_
    exact List.singleton_sublist.mpr (List.mem_append_right B (List.mem_cons_self y C))
  have h2 : [x, y].Sublist l := by
    rw [hsplit]
    exact h1.trans (List.sublist_append_right A _)
  have hpxy : ([x, y]).Pairwise R := hp.sublist h2
  exact (List.pairwise_cons.mp hpxy).1 y (List.mem_singleton_self y)

/-- One pass of `flushJobs` (its body up to the recursive re-flush):
drain the pre-flush queue, sort the main queue by id, then run the main
loop.  Returns the final state and the flush log. -/
def flushOnePass (preEnv : PreEnv) (fuel : Nat) (st : S5) :
    Option (S5 × List Entry5) :=
  match flushPre preEnv fuel st with
  | none => none
  | some (st1, pl) =>
      let sorted := sortJobs st1.queue
      let r := mainLoop sorted.length { st1 with queue := sorted } 0
      some (r.1, pl ++ r.2.map (fun p => Entry5.main p.1 p.2))

/--
Claim C5 (scheduler ordering).  For every completed flush pass:
(1) the pre-flush callbacks drain fully (to an empty pending queue)
    before any main-queue job runs, so the log is all pre entries
    followed by all main entries;
(2) the main-queue jobs execute in ascending id order, jobs without an
    id last;
(3) hence for any two executed jobs, the one logged earlier never has a
    strictly larger id — a parent P with a lower id queued in the same
    tick as its child C runs before C;
(4) a job that was inactive when the flush started is never executed,
    and (on any main-loop state with duplicate-free job identities) a
    job removed via `invalidateJob` by an earlier-running job is never
    executed in that flush.
-/
theorem scheduler_flush_ordering (preEnv : PreEnv) (fuel : Nat) (st stOut : S5)
    (L : List Entry5)
    (hrun : flushOnePass preEnv fuel st = some (stOut, L)) :
    (∃ (stMid : S5) (P : List Entry5) (M : List (Nat × Option Nat)),
       flushPre preEnv fuel st = some (stMid, P) ∧
       stMid.pendingPre = [] ∧
       (∀ e ∈ P, e.isPre = true) ∧
       L = P ++ M.map (fun p => Entry5.main p.1 p.2) ∧
       M.Pairwise (fun a b => leB a.2 b.2 = true) ∧
       (∀ (pP pC : Nat × Option Nat) (A B C_ : List (Nat × Option Nat)),
          M = A ++ (pP :: (B ++ (pC :: C_))) → leB pP.2 pC.2 = true) ∧
       (∀ j ∈ st.deactivated, ∀ o, (j, o) ∉ M) ∧
       (∀ p ∈ M, ∃ jb ∈ stMid.queue, p = (jb.jid, jb.oid))) ∧
    (∀ (fuel2 : Nat) (st2 : S5) (fi : Nat) (h2 : fi < st2.queue.length)
       (j : Nat) (o : Option Nat),
       (st2.queue.map Job5.jid).Nodup →
       (st2.queue.get ⟨fi, h2⟩).jid ∉ st2.deactivated →
       Cmd.invalidate j ∈ (st2.queue.get ⟨fi, h2⟩).body →
       j ∉ (st2.queue.take (fi + 1)).map Job5.jid →
       (j, o) ∉ (mainLoop fuel2 st2 fi).2) := by
  constructor
  · unfold flushOnePass at hrun
    cases hpre : flushPre preEnv fuel st with
    | none =>
      rw [hpre] at hrun
      exact Option.noConfusion hrun
    | some pr =>
      rcases pr with ⟨st1, pl⟩
      rw [hpre] at hrun
      simp only at hrun
      injection hrun with hrun
      injection hrun with h1 h2
      obtain ⟨hdrain, hpl, hdeact⟩ := flushPre_spec preEnv fuel st st1 pl hpre
      set stSorted : S5 := { st1 with queue := sortJobs st1.queue } with hsorteddef
      have hsorted : stSorted.queue.Pairwise (fun a b => leId a b = true) :=
        sortJobs_sorted st1.queue
      obtain ⟨hfrom, hpair⟩ :=
        mainLoop_sorted (sortJobs st1.queue).length stSorted 0 hsorted
      refine ⟨st1, pl, (mainLoop (sortJobs st1.queue).length stSorted 0).2, rfl,
        hdrain, hpl, h2.symm, hpair, ?_, ?_, ?_⟩
      · intro pP pC A B C_ hsplit
        exact pairwise_of_split _ A B C_ pP pC hpair hsplit
      · intro j hj o
        exact mainLoop_deactivated (sortJobs st1.queue).length stSorted 0 j o
          (hdeact j hj)
      · intro p hp
        obtain ⟨jb, hjb, he⟩ := hfrom p hp
        refine ⟨jb, ?_, he⟩
        rw [List.drop_zero] at hjb
        exact (sortJobs_perm st1.queue).subset hjb
  · intro fuel2 st2 fi h2 j o hnd hact hbody htake
    exact mainLoop_invalidate fuel2 st2 fi h2 j o hnd hact hbody htake

/-- Witness for C5: one pre-flush callback (id 7), a child job C
(identity 2, ordering id 5) queued before its parent P (identity 1,
ordering id 3) whose execution invalidates C.  The flush logs the pre
callback, then P; C never runs. -/
theorem scheduler_flush_ordering_witness :
    flushOnePass (fun c => if c = 7 then ([Cmd.nop], false) else ([], false)) 3
        ⟨[⟨2, some 5, []⟩, ⟨1, some 3, [Cmd.invalidate 2]⟩], [7], []⟩
      = some (⟨[⟨1, some 3, [Cmd.invalidate 2]⟩], [], []⟩,
              [Entry5.pre 7, Entry5.main 1 (some 3)]) ∧
    (∀ o : Option Nat, (2, o) ∉
      (mainLoop 2 ⟨[⟨1, some 3, [Cmd.invalidate 2]⟩, ⟨2, some 5, []⟩], [], []⟩ 0).2) := by
  constructor
  · decide
  · intro o
    exact (scheduler_flush_ordering (fun _ => ([], false)) 1
        ⟨[], [], []⟩ ⟨[], [], []⟩ [] (by decide)).2 2
        ⟨[⟨1, some 3, [Cmd.invalidate 2]⟩, ⟨2, some 5, []⟩], [], []⟩ 0
        (by decide) 2 o (by decide) (by decide) (by decide) (by decide)

end FlushModel

namespace LisModel

/-- The binary search inside `getSequence` (renderer.ts): narrow `[u, v]`
with `c = (u + v) >> 1`, moving `u` past slots whose value is below
`arrI`.  The fuel argument (instantiated with `result.length`, an upper
bound on `v - u`) makes the while-loop structural. -/
def binSearch (arr result : List Nat) (arrI : Nat) : Nat → Nat → Nat → Nat
  | 0, u, _ => u
  | fuel + 1, u, v =>
    if u < v then
      let c := (u + v) / 2
      if arr.getD (result.getD c 0) 0 < arrI then
        binSearch arr result arrI fuel (c + 1) v
      else
        binSearch arr result arrI fuel u c
    else u

/-- One iteration of the main `for` loop of `getSequence`, processing
index `i` of `arr` on state `(p, result)`: zero entries are skipped; a
value above the current tail is pushed (recording its predecessor in
`p`); otherwise the binary search finds the slot to lower. -/
def seqStep (arr : List Nat) (st : List Nat × List Nat) (i : Nat) :
    List Nat × List Nat :=
  let p := st.1
  let result := st.2
  let arrI := arr.getD i 0
  if arrI ≠ 0 then
    let j := result.getD (result.length - 1) 0
    if arr.getD j 0 < arrI then
      (p.set i j, result ++ [i])
    else
      let u := binSearch arr result arrI result.length 0 (result.length - 1)
      if arrI < arr.getD (result.getD u 0) 0 then
        (if 0 < u then p.set i (result.getD (u - 1) 0) else p, result.set u i)
      else (p, result)
  else (p, result)

/-- State `(p, result)` of `getSequence` after processing the first `t`
indices of `arr` (`p` starts as `arr.slice()`, `result` as `[0]`). -/
def seqState (arr : List Nat) : Nat → List Nat × List Nat
  | 0 => (arr, [0])
  | t + 1 => seqStep arr (seqState arr t) t

/-- The backtracking loop at the end of `getSequence`: rebuild the
result array backwards by chasing predecessor links through `p`,
starting from the last stored index. -/
def backtrack (p : List Nat) : Nat → Nat → List Nat
  | 0, _ => []
  | u + 1, v => backtrack p u (p.getD v 0) ++ [v]

/-- renderer.ts `getSequence`: run the main loop over the whole array,
then backtrack from the last slot of `result`. -/
def getSequence (arr : List Nat) : List Nat :=
  let st := seqState arr arr.length
  backtrack st.1 st.2.length (st.2.getD (st.2.length - 1) 0)

/-- The phase 5.3 move-and-mount loop of `patchKeyedChildren` in the
`moved = true` case, walking new positions `i` backwards with the
pointer `j` into `increasingNewIndexSequence` (`seq`).  A zero entry of
`newIndexToOldIndexMap` (`map`) mounts at position `i`; otherwise the
node moves (insert before the node at position `i + 1`, its
already-placed next sibling) unless `j ≥ 0` and `i = seq[j]`, in which
case `j` is decremented.  Returns the moved positions and the mounted
positions, each in processing (descending) order. -/
def phase53 (map seq : List Nat) : Nat → Int → List Nat × List Nat
  | 0, _ => ([], [])
  | i + 1, j =>
    if map.getD i 0 = 0 then
      let r := phase53 map seq i j
      (r.1, i :: r.2)
    else if j < 0 ∨ i ≠ seq.getD j.toNat 0 then
      let r := phase53 map seq i j
      (i :: r.1, r.2)
    else
      phase53 map seq i (j - 1)

/-- `newIndexToOldIndexMap` produced by reversing a fully-keyed list of
`N` items: new position `i` holds old index `N - 1 - i`, stored offset
by one, so the entry is `N - i`. -/
def revMap (N : Nat) : List Nat := (List.range N).map (fun k => N - k)

end LisModel

namespace LisModel

lemma getD_set_self (l : List Nat) (i a d : Nat) (h : i < l.length) :
    (l.set i a).getD i d = a := by
  rw [List.getD_eq_getElem?_getD, List.getElem?_set_self h]
  rfl

lemma getD_set_ne (l : List Nat) (i k a d : Nat) (h : i ≠ k) :
    (l.set i a).getD k d = l.getD k d := by
  rw [List.getD_eq_getElem?_getD, List.getElem?_set_ne h,
    ← List.getD_eq_getElem?_getD]

lemma getD_concat_len (l : List Nat) (a d : Nat) :
    (l ++ [a]).getD l.length d = a := by
  rw [List.getD_eq_getElem?_getD, List.getElem?_append_right (Nat.le_refl _)]
  simp

lemma getD_mem (l : List Nat) (d : Nat) (n : Nat) (h : n < l.length) :
    l.getD n d ∈ l := by
  rw [List.getD_eq_getElem l d h]
  exact List.getElem_mem h

lemma chain'_concat_iff {R : Nat → Nat → Prop} (c : List Nat) (x : Nat) :
    (c ++ [x]).Chain' R ↔ c.Chain' R ∧ ∀ y, c.getLast? = some y → R y x := by
  rw [List.chain'_append]
  constructor
  · rintro ⟨h1, _, h3⟩
    exact ⟨h1, fun y hy => h3 y hy x rfl⟩
  · rintro ⟨h1, h2⟩
    refine ⟨h1, List.chain'_singleton x, ?_⟩
    intro y hy z hz
    have hzx : x = z := by simpa using hz
    subst hzx
    exact h2 y hy

lemma mem_le_getLast (c : List Nat) (hc : c.Chain' (· < ·)) (y : Nat)
    (hy : c.getLast? = some y) : ∀ k ∈ c, k ≤ y := by
  induction c with
  | nil => cases hy
  | cons a rest ih =>
    cases rest with
    | nil =>
      intro k hk
      have hya : y = a := by simpa using hy.symm
      have hka : k = a := by simpa using hk
      omega
    | cons b rest2 =>
      have hy2 : (b :: rest2).getLast? = some y := by
        rw [← List.getLast?_cons_cons]
        exact hy
      have hc2 := List.chain'_cons.mp hc
      have htail := ih hc2.2 hy2
      intro k hk
      rcases List.mem_cons.mp hk with he | hm
      · have hby : b ≤ y := htail b (List.mem_cons_self b rest2)
        omega
      · exact htail k hm

lemma concat_dropLast (c : List Nat) (y : Nat) (hy : c.getLast? = some y) :
    c.dropLast ++ [y] = c := by
  have hne : c ≠ [] := by
    rintro rfl
    cases hy
  have h1 := List.dropLast_append_getLast hne
  rw [List.getLast?_eq_getLast c hne] at hy
  injection hy with hy
  rw [← hy]
  exact h1

lemma mem_of_getLast (c : List Nat) (y : Nat) (hy : c.getLast? = some y) :
    y ∈ c := by
  rw [← concat_dropLast c y hy]
  exact List.mem_append_right _ (List.mem_singleton_self y)

lemma sorted_getD_lt_iff (seq : List Nat) (hp : seq.Pairwise (· < ·)) (x : Nat) :
    ∀ s, s < seq.length →
      (seq.getD s 0 < x ↔ s < seq.countP (fun k => decide (k < x))) := by
  induction seq with
  | nil =>
    intro s hs
    simp at hs
  | cons a rest ih =>
    rcases List.pairwise_cons.mp hp with ⟨ha, hrest⟩
    intro s hs
    rw [List.countP_cons]
    by_cases hax : a < x
    · rw [if_pos (by simpa using hax)]
      cases s with
      | zero =>
        rw [List.getD_cons_zero]
        constructor
        · intro _
          omega
        · intro _
          exact hax
      | succ m =>
        rw [List.getD_cons_succ]
        have hm : m < rest.length := by
          simp at hs
          omega
        rw [ih hrest m hm]
        omega
    · rw [if_neg (by simpa using hax)]
      have hc0 : rest.countP (fun k => decide (k < x)) = 0 := by
        rw [List.countP_eq_zero]
        intro b hb
        have := ha b hb
        simp
        omega
      rw [hc0]
      cases s with
      | zero =>
        rw [List.getD_cons_zero]
        constructor
        · intro h
          omega
        · intro h
          omega
      | succ m =>
        rw [List.getD_cons_succ]
        have hm : m < rest.length := by
          simp at hs
          omega
        have hmem : rest.getD m 0 ∈ rest := getD_mem rest 0 m hm
        have := ha _ hmem
        constructor
        · intro h
          omega
        · intro h
          omega

lemma countP_lt_succ (seq : List Nat) (i : Nat) :
    seq.countP (fun k => decide (k < i + 1))
      = seq.countP (fun k => decide (k < i)) + seq.count i := by
  induction seq with
  | nil => simp
  | cons a rest ih =>
    rw [List.countP_cons, List.countP_cons, List.count_cons, ih]
    by_cases ha : a = i
    · subst ha
      rw [if_pos (show decide (a < a + 1) = true by simp),
        if_neg (show ¬(decide (a < a) = true) by simp),
        if_pos (show (a == a) = true by simp)]
      omega
    · rw [if_neg (show ¬((a == i) = true) by simp [ha])]
      by_cases h2 : a < i
      · rw [if_pos (show decide (a < i + 1) = true by simp; omega),
          if_pos (by simpa using h2)]
        omega
      · rw [if_neg (show ¬(decide (a < i + 1) = true) by simp; omega),
          if_neg (by simpa using h2)]
        omega

lemma countP_lt_notmem (seq : List Nat) (i : Nat) (h : i ∉ seq) :
    seq.countP (fun k => decide (k < i + 1))
      = seq.countP (fun k => decide (k < i)) := by
  refine List.countP_congr ?_
  intro a ha
  have hne : a ≠ i := fun he => h (he ▸ ha)
  simp
  omega

end LisModel

namespace LisModel

/-- The predecessor links stored in `p` encode, below index `i`, a
strictly increasing chain of `s + 1` indices with strictly increasing
`arr`-values, all values nonzero except that the head may carry value 0
only when it is index 0 (the seeded `result = [0]` slot). -/
def GoodChain (arr p : List Nat) : Nat → Nat → Prop
  | 0, i => arr.getD i 0 = 0 → i = 0
  | s + 1, i => p.getD i 0 < i ∧ arr.getD (p.getD i 0) 0 < arr.getD i 0 ∧
      arr.getD i 0 ≠ 0 ∧ GoodChain arr p s (p.getD i 0)

lemma goodChain_stable (arr p p2 : List Nat) :
    ∀ (s i : Nat), GoodChain arr p s i →
      (∀ k, k ≤ i → p2.getD k 0 = p.getD k 0) → GoodChain arr p2 s i := by
  intro s
  induction s with
  | zero =>
    intro i hg _
    exact hg
  | succ m ih =>
    intro i hg hagree
    obtain ⟨h1, h2, h3, h4⟩ := hg
    have he : p2.getD i 0 = p.getD i 0 := hagree i (Nat.le_refl i)
    refine ⟨he ▸ h1, he ▸ h2, h3, ?_⟩
    rw [he]
    refine ih (p.getD i 0) h4 ?_
    intro k hk
    exact hagree k (Nat.le_trans hk (Nat.le_of_lt h1))

lemma backtrack_spec (arr p : List Nat) :
    ∀ (s i : Nat), GoodChain arr p s i →
      (backtrack p (s + 1) i).length = s + 1 ∧
      (backtrack p (s + 1) i).Chain' (· < ·) ∧
      (backtrack p (s + 1) i).Chain' (fun a b => arr.getD a 0 < arr.getD b 0) ∧
      (∀ k ∈ backtrack p (s + 1) i, k ≤ i) ∧
      (∀ k ∈ backtrack p (s + 1) i, arr.getD k 0 = 0 → k = 0) ∧
      (backtrack p (s + 1) i).getLast? = some i := by
  intro s
  induction s with
  | zero =>
    intro i hg
    refine ⟨rfl, List.chain'_singleton i, List.chain'_singleton i, ?_, ?_, rfl⟩
    · intro k hk
      have : k = i := by simpa [backtrack] using hk
      omega
    · intro k hk hz
      have hki : k = i := by simpa [backtrack] using hk
      exact hki ▸ hg (hki ▸ hz)
  | succ m ih =>
    intro i hg
    obtain ⟨h1, h2, h3, h4⟩ := hg
    obtain ⟨ihlen, ihpos, ihval, ihle, ihz, ihlast⟩ := ih (p.getD i 0) h4
    have hshape : backtrack p (m + 1 + 1) i
        = backtrack p (m + 1) (p.getD i 0) ++ [i] := rfl
    rw [hshape]
    refine ⟨?_, ?_, ?_, ?_, ?_, List.getLast?_concat _⟩
    · rw [List.length_append, ihlen]
      simp
    · rw [chain'_concat_iff]
      refine ⟨ihpos, ?_⟩
      intro y hy
      rw [ihlast] at hy
      injection hy with hy
      subst hy
      exact h1
    · rw [chain'_concat_iff]
      refine ⟨ihval, ?_⟩
      intro y hy
      rw [ihlast] at hy
      injection hy with hy
      subst hy
      exact h2
    · intro k hk
      rcases List.mem_append.mp hk with hm | hm
      · exact Nat.le_trans (ihle k hm) (Nat.le_of_lt h1)
      · have : k = i := by simpa using hm
        omega
    · intro k hk hz
      rcases List.mem_append.mp hk with hm | hm
      · exact ihz k hm hz
      · have hki : k = i := by simpa using hm
        subst hki
        exact absurd hz h3

lemma binSearch_spec (arr result : List Nat) (arrI : Nat)
    (hmono : ∀ s1 s2, s1 ≤ s2 → s2 < result.length →
      arr.getD (result.getD s1 0) 0 ≤ arr.getD (result.getD s2 0) 0) :
    ∀ (fuel u v : Nat), u ≤ v → v < result.length → v - u ≤ fuel →
      (∀ s, s < u → arr.getD (result.getD s 0) 0 < arrI) →
      arrI ≤ arr.getD (result.getD v 0) 0 →
      u ≤ binSearch arr result arrI fuel u v ∧
      binSearch arr result arrI fuel u v ≤ v ∧
      (∀ s, s < binSearch arr result arrI fuel u v →
        arr.getD (result.getD s 0) 0 < arrI) ∧
      arrI ≤ arr.getD (result.getD (binSearch arr result arrI fuel u v) 0) 0 := by
  intro fuel
  induction fuel with
  | zero =>
    intro u v huv hvlen hfuel hu hv
    have huv2 : u = v := by omega
    rw [binSearch]
    exact ⟨Nat.le_refl u, huv, hu, huv2 ▸ hv⟩
  | succ f ih =>
    intro u v huv hvlen hfuel hu hv
    rw [binSearch]
    by_cases hlt : u < v
    · rw [if_pos hlt]
      simp only
      set c := (u + v) / 2 with hc
      have hcu : u ≤ c := by omega
      have hcv : c < v := by omega
      by_cases hcond : arr.getD (result.getD c 0) 0 < arrI
      · rw [if_pos hcond]
        have hu2 : ∀ s, s < c + 1 → arr.getD (result.getD s 0) 0 < arrI := by
          intro s hs
          exact Nat.lt_of_le_of_lt (hmono s c (by omega) (by omega)) hcond
        obtain ⟨r1, r2, r3, r4⟩ := ih (c + 1) v (by omega) hvlen (by omega) hu2 hv
        exact ⟨by omega, r2, r3, r4⟩
      · rw [if_neg hcond]
        have hv2 : arrI ≤ arr.getD (result.getD c 0) 0 := Nat.le_of_not_lt hcond
        obtain ⟨r1, r2, r3, r4⟩ := ih u c hcu (by omega) (by omega) hu hv2
        exact ⟨r1, by omega, r3, r4⟩
    · rw [if_neg hlt]
      have huv2 : u = v := by omega
      exact ⟨Nat.le_refl u, huv, hu, huv2 ▸ hv⟩

end LisModel

namespace LisModel

/-- Loop invariant of `getSequence` after processing the first `t`
entries of `arr`.  `result` is nonempty; its stored indices are already
processed (or the seeded index 0); slot values are strictly increasing;
each slot `s` heads a `p`-encoded chain of length `s + 1`; and every
strictly increasing chain of processed indices with nonzero, strictly
increasing values is no longer than `result`, slotwise dominating the
stored tail values. -/
structure SeqInv (arr : List Nat) (t : Nat) (p result : List Nat) : Prop where
  nonempty : 0 < result.length
  plen : p.length = arr.length
  pos : ∀ s, s < result.length → result.getD s 0 < t ∨ result.getD s 0 = 0
  mono : ∀ s1 s2, s1 < s2 → s2 < result.length →
    arr.getD (result.getD s1 0) 0 < arr.getD (result.getD s2 0) 0
  good : ∀ s, s < result.length → GoodChain arr p s (result.getD s 0)
  maxi : ∀ (c : List Nat) (y : Nat), c.Chain' (· < ·) →
    (∀ k ∈ c, k < t ∧ arr.getD k 0 ≠ 0) →
    c.Chain' (fun a b => arr.getD a 0 < arr.getD b 0) → c.getLast? = some y →
    c.length - 1 < result.length ∧
    arr.getD (result.getD (c.length - 1) 0) 0 ≤ arr.getD y 0

lemma SeqInv.mono_le {arr : List Nat} {t : Nat} {p result : List Nat}
    (h : SeqInv arr t p result) (s1 s2 : Nat) (h12 : s1 ≤ s2)
    (h2 : s2 < result.length) :
    arr.getD (result.getD s1 0) 0 ≤ arr.getD (result.getD s2 0) 0 := by
  rcases Nat.lt_or_ge s1 s2 with hlt | hge
  · exact Nat.le_of_lt (h.mono s1 s2 hlt h2)
  · have : s1 = s2 := by omega
    rw [this]

lemma inv_init (arr : List Nat) : SeqInv arr 0 arr [0] := by
  refine ⟨by simp, rfl, ?_, ?_, ?_, ?_⟩
  · intro s hs
    have hs0 : s = 0 := by simpa using hs
    subst hs0
    right
    rfl
  · intro s1 s2 h12 h2
    simp at h2
    omega
  · intro s hs
    have hs0 : s = 0 := by simpa using hs
    subst hs0
    intro _
    rfl
  · intro c y hpos hmem hval hlast
    cases c with
    | nil => cases hlast
    | cons a rest => exact absurd (hmem a (List.mem_cons_self a rest)).1 (by omega)

end LisModel

namespace LisModel

lemma chain_split_at_t (arr : List Nat) (t : Nat) (c : List Nat) (y : Nat)
    (hposc : c.Chain' (· < ·))
    (hmem : ∀ k ∈ c, k < t + 1 ∧ arr.getD k 0 ≠ 0)
    (hval : c.Chain' (fun a b => arr.getD a 0 < arr.getD b 0))
    (hlast : c.getLast? = some y) :
    (y < t ∧ (∀ k ∈ c, k < t ∧ arr.getD k 0 ≠ 0)) ∨
    (y = t ∧ c.dropLast ++ [t] = c ∧ c.length = c.dropLast.length + 1 ∧
      c.dropLast.Chain' (· < ·) ∧
      c.dropLast.Chain' (fun a b => arr.getD a 0 < arr.getD b 0) ∧
      (∀ k ∈ c.dropLast, k < t ∧ arr.getD k 0 ≠ 0) ∧
      (∀ y2, c.dropLast.getLast? = some y2 →
        y2 < t ∧ arr.getD y2 0 < arr.getD t 0)) := by
  have hy := hmem y (mem_of_getLast c y hlast)
  by_cases hyt : y = t
  · subst hyt
    have hdec : c.dropLast ++ [y] = c := concat_dropLast c y hlast
    have hlen : c.length = c.dropLast.length + 1 := by
      conv_lhs => rw [← hdec]
      rw [List.length_append]
      rfl
    have hposc2 : (c.dropLast ++ [y]).Chain' (· < ·) := by
      rw [hdec]
      exact hposc
    have hval2 : (c.dropLast ++ [y]).Chain' (fun a b =>
        arr.getD a 0 < arr.getD b 0) := by
      rw [hdec]
      exact hval
    obtain ⟨hpc, hplink⟩ := (chain'_concat_iff c.dropLast y).mp hposc2
    obtain ⟨hvc, hvlink⟩ := (chain'_concat_iff c.dropLast y).mp hval2
    right
    refine ⟨rfl, hdec, hlen, hpc, hvc, ?_, ?_⟩
    · intro k hk
      have hkc : k ∈ c := (List.dropLast_sublist c).subset hk
      refine ⟨?_, (hmem k hkc).2⟩
      have hne : c.dropLast ≠ [] := by
        rintro he
        rw [he] at hk
        cases hk
      obtain ⟨y2, hy2⟩ : ∃ y2, c.dropLast.getLast? = some y2 := by
        rw [List.getLast?_eq_getLast c.dropLast hne]
        exact ⟨_, rfl⟩
      have hky2 := mem_le_getLast c.dropLast hpc y2 hy2 k hk
      have := hplink y2 hy2
      omega
    · intro y2 hy2
      exact ⟨hplink y2 hy2, hvlink y2 hy2⟩
  · left
    have hyt2 : y < t := by
      have := hy.1
      omega
    refine ⟨hyt2, ?_⟩
    intro k hk
    have := mem_le_getLast c hposc y hlast k hk
    exact ⟨by omega, (hmem k hk).2⟩

lemma inv_step_zero (arr p result : List Nat) (t : Nat)
    (h : SeqInv arr t p result) (h0 : arr.getD t 0 = 0) :
    SeqInv arr (t + 1) p result := by
  refine ⟨h.nonempty, h.plen, ?_, h.mono, h.good, ?_⟩
  · intro s hs
    rcases h.pos s hs with h1 | h1
    · left
      omega
    · right
      exact h1
  · intro c y hposc hmem hval hlast
    rcases chain_split_at_t arr t c y hposc hmem hval hlast with ⟨_, hmem2⟩ | ⟨hyt, _⟩
    · exact h.maxi c y hposc hmem2 hval hlast
    · subst hyt
      exact absurd h0 (hmem y (mem_of_getLast c y hlast)).2

lemma inv_step_push (arr p result : List Nat) (t : Nat) (ht : t < arr.length)
    (h : SeqInv arr t p result) (h0 : arr.getD t 0 ≠ 0)
    (hfast : arr.getD (result.getD (result.length - 1) 0) 0 < arr.getD t 0) :
    SeqInv arr (t + 1) (p.set t (result.getD (result.length - 1) 0))
      (result ++ [t]) := by
  set last := result.getD (result.length - 1) 0 with hlastdef
  have hlenpos := h.nonempty
  have hlastpos : last < t ∨ last = 0 :=
    h.pos (result.length - 1) (by omega)
  have ht1 : 0 < t := by
    by_contra ht0
    have ht0e : t = 0 := by omega
    have hl0 : last = 0 := by
      rcases hlastpos with h1 | h1
      · omega
      · exact h1
    rw [ht0e, ← hl0] at hfast
    exact absurd hfast (Nat.lt_irrefl _)
  have hlastlt : last < t := by
    rcases hlastpos with h1 | h1
    · exact h1
    · omega
  have hall : ∀ s, s < result.length →
      arr.getD (result.getD s 0) 0 < arr.getD t 0 := by
    intro s hs
    exact Nat.lt_of_le_of_lt (h.mono_le s (result.length - 1) (by omega)
      (by omega)) hfast
  have hgetlt : ∀ s, s < result.length →
      (result ++ [t]).getD s 0 = result.getD s 0 := by
    intro s hs
    exact List.getD_append _ _ _ _ hs
  have hgetlen : (result ++ [t]).getD result.length 0 = t :=
    getD_concat_len result t 0
  have hagree : ∀ k, k < t →
      (p.set t last).getD k 0 = p.getD k 0 := by
    intro k hk
    exact getD_set_ne p t k last 0 (by omega)
  have hstable : ∀ s, s < result.length →
      GoodChain arr (p.set t last) s (result.getD s 0) := by
    intro s hs
    refine goodChain_stable arr p (p.set t last) s (result.getD s 0)
      (h.good s hs) ?_
    intro k hk
    rcases h.pos s hs with h1 | h1
    · exact hagree k (by omega)
    · rw [h1] at hk
      have hk0 : k = 0 := by omega
      exact hagree k (by omega)
  refine ⟨?_, ?_, ?_, ?_, ?_, ?_⟩
  · rw [List.length_append]
    omega
  · rw [List.length_set]
    exact h.plen
  · intro s hs
    rw [List.length_append] at hs
    by_cases hslt : s < result.length
    · rw [hgetlt s hslt]
      rcases h.pos s hslt with h1 | h1
      · left
        omega
      · right
        exact h1
    · have hse : s = result.length := by
        simp at hs
        omega
      rw [hse, hgetlen]
      left
      omega
  · intro s1 s2 h12 h2
    rw [List.length_append] at h2
    by_cases hs2 : s2 < result.length
    · rw [hgetlt s1 (by omega), hgetlt s2 hs2]
      exact h.mono s1 s2 h12 hs2
    · have hse : s2 = result.length := by
        simp at h2
        omega
      rw [hse, hgetlen, hgetlt s1 (by omega)]
      exact hall s1 (by omega)
  · intro s hs
    rw [List.length_append] at hs
    by_cases hslt : s < result.length
    · rw [hgetlt s hslt]
      exact hstable s hslt
    · have hse : s = result.length := by
        simp at hs
        omega
      subst hse
      rw [hgetlen]
      obtain ⟨m, hm⟩ : ∃ m, result.length = m + 1 := ⟨result.length - 1, by omega⟩
      rw [hm]
      have hplast : (p.set t last).getD t 0 = last :=
        getD_set_self p t last 0 (by rw [h.plen]; exact ht)
      refine ⟨?_, ?_, h0, ?_⟩
      · rw [hplast]
        exact hlastlt
      · rw [hplast]
        exact hfast
      · rw [hplast]
        have hstab := hstable (result.length - 1) (by omega)
        have hidx : result.length - 1 = m := by omega
        rw [hidx] at hstab
        have hlm : last = result.getD m 0 := by
          rw [hlastdef, hidx]
        rw [← hlm] at hstab
        exact hstab
  · intro c y hposc hmem hval hlast2
    rcases chain_split_at_t arr t c y hposc hmem hval hlast2 with
      ⟨_, hmem2⟩ | ⟨hyt, hdec, hclen, hpc, hvc, hmemc, hlink⟩
    · obtain ⟨hb, hv⟩ := h.maxi c y hposc hmem2 hval hlast2
      refine ⟨by rw [List.length_append, List.length_singleton]; omega, ?_⟩
      rw [hgetlt _ hb]
      exact hv
    · subst hyt
      rw [hclen]
      by_cases hne : c.dropLast = []
      · rw [hne, List.length_nil]
        simp only [Nat.add_sub_cancel]
        refine ⟨by rw [List.length_append, List.length_singleton]; omega, ?_⟩
        rw [hgetlt 0 (by omega)]
        exact Nat.le_of_lt (hall 0 (by omega))
      · obtain ⟨y2, hy2⟩ : ∃ y2, c.dropLast.getLast? = some y2 := by
          rw [List.getLast?_eq_getLast c.dropLast hne]
          exact ⟨_, rfl⟩
        obtain ⟨hb, hv⟩ := h.maxi c.dropLast y2 hpc hmemc hvc hy2
        have hL1 : 0 < c.dropLast.length := by
          cases hx : c.dropLast with
          | nil => exact absurd hx hne
          | cons a rest => simp
        refine ⟨by rw [List.length_append, List.length_singleton]; omega, ?_⟩
        simp only [Nat.add_sub_cancel]
        by_cases hL : c.dropLast.length < result.length
        · rw [hgetlt _ hL]
          exact Nat.le_of_lt (hall _ hL)
        · have hLe : c.dropLast.length = result.length := by omega
          rw [hLe, hgetlen]

end LisModel

namespace LisModel

lemma inv_step_replace (arr p result : List Nat) (t u : Nat)
    (ht : t < arr.length) (h : SeqInv arr t p result)
    (h0 : arr.getD t 0 ≠ 0) (hu : u < result.length)
    (b3 : ∀ s, s < u → arr.getD (result.getD s 0) 0 < arr.getD t 0)
    (hlt : arr.getD t 0 < arr.getD (result.getD u 0) 0) :
    SeqInv arr (t + 1)
      (if 0 < u then p.set t (result.getD (u - 1) 0) else p)
      (result.set u t) := by
  have ht1 : 0 < t := by
    by_contra ht0
    have ht0e : t = 0 := by omega
    have hu0 : result.getD u 0 = 0 := by
      rcases h.pos u hu with h1 | h1
      · omega
      · exact h1
    rw [hu0, ht0e] at hlt
    exact absurd hlt (Nat.lt_irrefl _)
  have hget_ne : ∀ s, s ≠ u → (result.set u t).getD s 0 = result.getD s 0 := by
    intro s hs
    exact getD_set_ne result u s t 0 (fun he => hs he.symm)
  have hget_u : (result.set u t).getD u 0 = t := getD_set_self result u t 0 hu
  have hagree : ∀ k, k < t →
      (if 0 < u then p.set t (result.getD (u - 1) 0) else p).getD k 0
        = p.getD k 0 := by
    intro k hk
    by_cases hu0 : 0 < u
    · rw [if_pos hu0]
      exact getD_set_ne p t k _ 0 (by omega)
    · rw [if_neg hu0]
  have hstable : ∀ s, s < result.length →
      GoodChain arr (if 0 < u then p.set t (result.getD (u - 1) 0) else p) s
        (result.getD s 0) := by
    intro s hs
    refine goodChain_stable arr p _ s (result.getD s 0) (h.good s hs) ?_
    intro k hk
    rcases h.pos s hs with h1 | h1
    · exact hagree k (by omega)
    · rw [h1] at hk
      exact hagree k (by omega)
  refine ⟨?_, ?_, ?_, ?_, ?_, ?_⟩
  · rw [List.length_set]
    exact h.nonempty
  · by_cases hu0 : 0 < u
    · rw [if_pos hu0, List.length_set]
      exact h.plen
    · rw [if_neg hu0]
      exact h.plen
  · intro s hs
    rw [List.length_set] at hs
    by_cases hsu : s = u
    · subst hsu
      rw [hget_u]
      left
      omega
    · rw [hget_ne s hsu]
      rcases h.pos s hs with h1 | h1
      · left
        omega
      · right
        exact h1
  · intro s1 s2 h12 h2
    rw [List.length_set] at h2
    by_cases hs1 : s1 = u
    · rw [hs1, hget_u, hget_ne s2 (by omega)]
      exact Nat.lt_trans hlt (h.mono u s2 (by omega) h2)
    · by_cases hs2 : s2 = u
      · subst hs2
        rw [hget_u, hget_ne s1 hs1]
        exact b3 s1 h12
      · rw [hget_ne s1 hs1, hget_ne s2 hs2]
        exact h.mono s1 s2 h12 h2
  · intro s hs
    rw [List.length_set] at hs
    by_cases hsu : s = u
    · rw [hsu, hget_u]
      rcases u with _ | m
      · intro hz
        exact absurd hz h0
      · have hu0 : 0 < m + 1 := Nat.succ_pos m
        have hpt : (if 0 < m + 1 then p.set t (result.getD (m + 1 - 1) 0)
            else p).getD t 0 = result.getD (m + 1 - 1) 0 := by
          rw [if_pos hu0]
          exact getD_set_self p t _ 0 (by rw [h.plen]; exact ht)
        have hm1 : m + 1 - 1 = m := rfl
        refine ⟨?_, ?_, h0, ?_⟩
        · rw [hpt, hm1]
          rcases h.pos m (by omega) with h1 | h1
          · omega
          · omega
        · rw [hpt, hm1]
          exact b3 m (by omega)
        · rw [hpt, hm1]
          exact hstable m (by omega)
    · rw [hget_ne s hsu]
      exact hstable s hs
  · intro c y hposc hmem hval hlast2
    rcases chain_split_at_t arr t c y hposc hmem hval hlast2 with
      ⟨_, hmem2⟩ | ⟨hyt, hdec, hclen, hpc, hvc, hmemc, hlink⟩
    · obtain ⟨hb, hv⟩ := h.maxi c y hposc hmem2 hval hlast2
      refine ⟨by rw [List.length_set]; omega, ?_⟩
      by_cases hcu : c.length - 1 = u
      · rw [hcu, hget_u]
        refine Nat.le_trans (Nat.le_of_lt hlt) ?_
        rw [← hcu]
        exact hv
      · rw [hget_ne _ hcu]
        exact hv
    · subst hyt
      rw [hclen]
      by_cases hne : c.dropLast = []
      · rw [hne, List.length_nil]
        simp only [Nat.add_sub_cancel]
        refine ⟨by rw [List.length_set]; omega, ?_⟩
        by_cases hu0 : 0 < u
        · rw [hget_ne 0 (by omega)]
          exact Nat.le_of_lt (b3 0 hu0)
        · have hu0e : u = 0 := by omega
          subst hu0e
          rw [hget_u]
      · obtain ⟨y2, hy2⟩ : ∃ y2, c.dropLast.getLast? = some y2 := by
          rw [List.getLast?_eq_getLast c.dropLast hne]
          exact ⟨_, rfl⟩
        obtain ⟨hb, hv⟩ := h.maxi c.dropLast y2 hpc hmemc hvc hy2
        have hv2 := Nat.lt_of_le_of_lt hv (hlink y2 hy2).2
        have hLu : c.dropLast.length - 1 < u := by
          by_contra hge2
          have := h.mono_le u (c.dropLast.length - 1) (by omega) hb
          omega
        have hL1 : 0 < c.dropLast.length := by
          cases hx : c.dropLast with
          | nil => exact absurd hx hne
          | cons a rest => simp
        refine ⟨by rw [List.length_set]; omega, ?_⟩
        simp only [Nat.add_sub_cancel]
        by_cases hLeq : c.dropLast.length = u
        · rw [hLeq, hget_u]
        · rw [hget_ne _ hLeq]
          exact Nat.le_of_lt (b3 _ (by omega))

lemma inv_step_noop (arr p result : List Nat) (t u : Nat)
    (h : SeqInv arr t p result) (h0 : arr.getD t 0 ≠ 0)
    (hu : u < result.length)
    (b3 : ∀ s, s < u → arr.getD (result.getD s 0) 0 < arr.getD t 0)
    (b4 : arr.getD t 0 ≤ arr.getD (result.getD u 0) 0)
    (hge : ¬ arr.getD t 0 < arr.getD (result.getD u 0) 0) :
    SeqInv arr (t + 1) p result := by
  have heq : arr.getD (result.getD u 0) 0 = arr.getD t 0 := by omega
  refine ⟨h.nonempty, h.plen, ?_, h.mono, h.good, ?_⟩
  · intro s hs
    rcases h.pos s hs with h1 | h1
    · left
      omega
    · right
      exact h1
  · intro c y hposc hmem hval hlast2
    rcases chain_split_at_t arr t c y hposc hmem hval hlast2 with
      ⟨_, hmem2⟩ | ⟨hyt, hdec, hclen, hpc, hvc, hmemc, hlink⟩
    · exact h.maxi c y hposc hmem2 hval hlast2
    · subst hyt
      rw [hclen]
      by_cases hne : c.dropLast = []
      · rw [hne, List.length_nil]
        simp only [Nat.add_sub_cancel]
        refine ⟨by omega, ?_⟩
        refine Nat.le_trans (h.mono_le 0 u (by omega) hu) ?_
        rw [heq]
      · obtain ⟨y2, hy2⟩ : ∃ y2, c.dropLast.getLast? = some y2 := by
          rw [List.getLast?_eq_getLast c.dropLast hne]
          exact ⟨_, rfl⟩
        obtain ⟨hb, hv⟩ := h.maxi c.dropLast y2 hpc hmemc hvc hy2
        have hv2 := Nat.lt_of_le_of_lt hv (hlink y2 hy2).2
        have hLu : c.dropLast.length - 1 < u := by
          by_contra hge2
          have := h.mono_le u (c.dropLast.length - 1) (by omega) hb
          omega
        have hL1 : 0 < c.dropLast.length := by
          cases hx : c.dropLast with
          | nil => exact absurd hx hne
          | cons a rest => simp
        refine ⟨by omega, ?_⟩
        simp only [Nat.add_sub_cancel]
        refine Nat.le_trans (h.mono_le c.dropLast.length u (by omega) hu) ?_
        rw [heq]

end LisModel

namespace LisModel

lemma inv_step (arr p result : List Nat) (t : Nat) (ht : t < arr.length)
    (h : SeqInv arr t p result) :
    SeqInv arr (t + 1) (seqStep arr (p, result) t).1
      (seqStep arr (p, result) t).2 := by
  by_cases h0 : arr.getD t 0 = 0
  · have hstep : seqStep arr (p, result) t = (p, result) := by
      simp only [seqStep]
      rw [if_neg (not_not_intro h0)]
    rw [hstep]
    exact inv_step_zero arr p result t h h0
  · by_cases hfast : arr.getD (result.getD (result.length - 1) 0) 0
        < arr.getD t 0
    · have hstep : seqStep arr (p, result) t
          = (p.set t (result.getD (result.length - 1) 0), result ++ [t]) := by
        simp only [seqStep]
        rw [if_pos h0, if_pos hfast]
      rw [hstep]
      exact inv_step_push arr p result t ht h h0 hfast
    · obtain ⟨u, hueq⟩ : ∃ u, binSearch arr result (arr.getD t 0)
          result.length 0 (result.length - 1) = u := ⟨_, rfl⟩
      have hlenpos := h.nonempty
      obtain ⟨hb1, hb2, hb3, hb4⟩ := binSearch_spec arr result (arr.getD t 0)
        h.mono_le result.length 0 (result.length - 1) (by omega) (by omega)
        (by omega) (fun s hs => absurd hs (Nat.not_lt_zero s))
        (Nat.le_of_not_lt hfast)
      rw [hueq] at hb1 hb2 hb3 hb4
      have hulen : u < result.length := by omega
      by_cases hrep : arr.getD t 0 < arr.getD (result.getD u 0) 0
      · have hstep : seqStep arr (p, result) t
            = (if 0 < u then p.set t (result.getD (u - 1) 0) else p,
               result.set u t) := by
          simp only [seqStep]
          rw [if_pos h0, if_neg hfast, hueq, if_pos hrep]
        rw [hstep]
        exact inv_step_replace arr p result t u ht h h0 hulen hb3 hrep
      · have hstep : seqStep arr (p, result) t = (p, result) := by
          simp only [seqStep]
          rw [if_pos h0, if_neg hfast, hueq, if_neg hrep]
        rw [hstep]
        exact inv_step_noop arr p result t u h h0 hulen hb3 hb4 hrep

lemma inv_seqState (arr : List Nat) : ∀ t, t ≤ arr.length →
    SeqInv arr t (seqState arr t).1 (seqState arr t).2 := by
  intro t
  induction t with
  | zero =>
    intro _
    exact inv_init arr
  | succ m ih =>
    intro hle
    exact inv_step arr (seqState arr m).1 (seqState arr m).2 m (by omega)
      (ih (by omega))

end LisModel

namespace LisModel

lemma getSequence_spec (arr : List Nat) (h0 : 0 < arr.length) :
    (getSequence arr).Chain' (· < ·) ∧
    (getSequence arr).Chain' (fun a b => arr.getD a 0 < arr.getD b 0) ∧
    (∀ k ∈ getSequence arr, k < arr.length) ∧
    (∀ k ∈ getSequence arr, arr.getD k 0 = 0 → k = 0) ∧
    0 < (getSequence arr).length ∧
    (∀ c : List Nat, c.Chain' (· < ·) →
       (∀ k ∈ c, k < arr.length ∧ arr.getD k 0 ≠ 0) →
       c.Chain' (fun a b => arr.getD a 0 < arr.getD b 0) →
       c.length ≤ (getSequence arr).length) := by
  have hinv := inv_seqState arr arr.length (Nat.le_refl _)
  have hn := hinv.nonempty
  obtain ⟨m, hm⟩ : ∃ m, (seqState arr arr.length).2.length = m + 1 :=
    ⟨(seqState arr arr.length).2.length - 1, by omega⟩
  have heq : getSequence arr
      = backtrack (seqState arr arr.length).1
        ((seqState arr arr.length).2.length)
        ((seqState arr arr.length).2.getD
          ((seqState arr arr.length).2.length - 1) 0) := rfl
  have hidx : (seqState arr arr.length).2.length - 1 = m := by omega
  have hgc := hinv.good ((seqState arr arr.length).2.length - 1) (by omega)
  rw [hidx] at hgc
  obtain ⟨hlen, hcpos, hcval, hle, hzero, hlast⟩ :=
    backtrack_spec arr (seqState arr arr.length).1 m
      ((seqState arr arr.length).2.getD m 0) hgc
  have heq2 : getSequence arr
      = backtrack (seqState arr arr.length).1 (m + 1)
        ((seqState arr arr.length).2.getD m 0) := by
    rw [heq, hm, Nat.add_sub_cancel]
  have hvpos : (seqState arr arr.length).2.getD m 0 < arr.length ∨
      (seqState arr arr.length).2.getD m 0 = 0 := by
    have := hinv.pos ((seqState arr arr.length).2.length - 1) (by omega)
    rw [hidx] at this
    exact this
  rw [heq2]
  refine ⟨hcpos, hcval, ?_, hzero, by rw [hlen]; omega, ?_⟩
  · intro k hk
    have := hle k hk
    rcases hvpos with h1 | h1
    · omega
    · omega
  · intro c hc1 hc2 hc3
    by_cases hcne : c = []
    · rw [hcne]
      simp
    · obtain ⟨y, hy⟩ : ∃ y, c.getLast? = some y := by
        rw [List.getLast?_eq_getLast c hcne]
        exact ⟨_, rfl⟩
      have hc0 : 0 < c.length := List.length_pos.mpr hcne
      obtain ⟨hb, _⟩ := hinv.maxi c y hc1 hc2 hc3 hy
      rw [hlen]
      omega

end LisModel

namespace LisModel

lemma phase53_spec (map seq : List Nat)
    (hp : seq.Pairwise (· < ·))
    (hzero : ∀ k ∈ seq, map.getD k 0 = 0 → k = 0) :
    ∀ i : Nat,
      phase53 map seq i ((seq.countP (fun k => decide (k < i)) : Int) - 1)
        = ((List.range i).reverse.filter
             (fun k => decide (map.getD k 0 ≠ 0) && decide (¬ k ∈ seq)),
           (List.range i).reverse.filter (fun k => decide (map.getD k 0 = 0))) := by
  intro i
  induction i with
  | zero => simp [phase53]
  | succ i ih =>
    have hrev : (List.range (i + 1)).reverse = i :: (List.range i).reverse := by
      rw [List.range_succ, List.reverse_append]
      rfl
    rw [phase53]
    by_cases hm : map.getD i 0 = 0
    · rw [if_pos hm]
      by_cases hmem : i ∈ seq
      · have hi0 : i = 0 := hzero i hmem hm
        subst hi0
        rw [List.getD_eq_getElem?_getD] at hm
        simp [phase53, List.range_succ, hm]
      · have hcnt : seq.countP (fun k => decide (k < i + 1))
            = seq.countP (fun k => decide (k < i)) := countP_lt_notmem seq i hmem
        rw [hcnt, ih, hrev, List.filter_cons, List.filter_cons]
        rw [List.getD_eq_getElem?_getD] at hm
        simp [hm]
    · rw [if_neg hm]
      by_cases hmem : i ∈ seq
      · have hcnt1 : 0 < seq.countP (fun k => decide (k < i + 1)) :=
          List.countP_pos.mpr ⟨i, hmem, by simp⟩
        have hclen : seq.countP (fun k => decide (k < i + 1)) ≤ seq.length :=
          List.countP_le_length _
        have hnd : seq.Nodup := hp.imp (fun h12 => Nat.ne_of_lt h12)
        obtain ⟨s0, hs0len, hs0⟩ := List.mem_iff_getElem.mp hmem
        have hs0d : seq.getD s0 0 = i := by
          rw [List.getD_eq_getElem _ _ hs0len, hs0]
        have hiff := sorted_getD_lt_iff seq hp (i + 1)
        have hs0lt : s0 < seq.countP (fun k => decide (k < i + 1)) :=
          (hiff s0 hs0len).mp (by rw [hs0d]; omega)
        have hgetd : seq.getD
            (seq.countP (fun k => decide (k < i + 1)) - 1) 0 = i := by
          by_cases hse : s0 = seq.countP (fun k => decide (k < i + 1)) - 1
          · rw [← hse]
            exact hs0d
          · have hs0lt2 : s0 < seq.countP (fun k => decide (k < i + 1)) - 1 := by
              omega
            have hc1len : seq.countP (fun k => decide (k < i + 1)) - 1
                < seq.length := by omega
            have hmono2 := List.pairwise_iff_get.mp hp ⟨s0, hs0len⟩
              ⟨_, hc1len⟩ (by simpa using hs0lt2)
            have hg1 : seq.getD
                (seq.countP (fun k => decide (k < i + 1)) - 1) 0
                = seq.get ⟨_, hc1len⟩ := List.getD_eq_getElem _ _ hc1len
            have hg2 : seq.get ⟨s0, hs0len⟩ = i := hs0
            have hlt2 := (hiff _ hc1len).mpr (by omega)
            rw [hg1]
            rw [hg2] at hmono2
            rw [hg1] at hlt2
            omega
        have hjnn : ¬ ((seq.countP (fun k => decide (k < i + 1)) : Int) - 1
            < 0) := by omega
        have htoNat : ((seq.countP (fun k => decide (k < i + 1)) : Int)
            - 1).toNat = seq.countP (fun k => decide (k < i + 1)) - 1 := by
          omega
        have hcond : ¬ (((seq.countP (fun k => decide (k < i + 1)) : Int) - 1
            < 0) ∨ i ≠ seq.getD (((seq.countP (fun k =>
              decide (k < i + 1)) : Int) - 1).toNat) 0) := by
          rw [htoNat, hgetd]
          intro hor
          rcases hor with h1 | h1
          · exact hjnn h1
          · exact h1 rfl
        rw [if_neg hcond]
        have hcount : seq.countP (fun k => decide (k < i + 1))
            = seq.countP (fun k => decide (k < i)) + 1 := by
          rw [countP_lt_succ]
          have := List.count_eq_one_of_mem hnd hmem
          omega
        have hj1 : ((seq.countP (fun k => decide (k < i + 1)) : Int) - 1) - 1
            = ((seq.countP (fun k => decide (k < i)) : Int) - 1) := by
          rw [hcount]
          push_cast
          ring
        rw [hj1, ih, hrev, List.filter_cons, List.filter_cons]
        rw [List.getD_eq_getElem?_getD] at hm
        simp [hm, hmem]
      · have hcnt : seq.countP (fun k => decide (k < i + 1))
            = seq.countP (fun k => decide (k < i)) := countP_lt_notmem seq i hmem
        have hcond : (((seq.countP (fun k => decide (k < i + 1)) : Int) - 1
            < 0) ∨ i ≠ seq.getD (((seq.countP (fun k =>
              decide (k < i + 1)) : Int) - 1).toNat) 0) := by
          by_cases hc0 : seq.countP (fun k => decide (k < i + 1)) = 0
          · left
            omega
          · right
            have h1 : 0 < seq.countP (fun k => decide (k < i + 1)) :=
              Nat.pos_of_ne_zero hc0
            have hclen : seq.countP (fun k => decide (k < i + 1))
                ≤ seq.length := List.countP_le_length _
            have htoNat : ((seq.countP (fun k => decide (k < i + 1)) : Int)
                - 1).toNat
                = seq.countP (fun k => decide (k < i + 1)) - 1 := by omega
            rw [htoNat]
            intro he
            have hc1len : seq.countP (fun k => decide (k < i + 1)) - 1
                < seq.length := by omega
            have hmem2 := getD_mem seq 0 _ hc1len
            rw [← he] at hmem2
            exact hmem hmem2
        rw [if_pos hcond, hcnt, ih, hrev, List.filter_cons, List.filter_cons]
        rw [List.getD_eq_getElem?_getD] at hm
        simp [hm, hmem]

lemma phase53_of_getSequence (map : List Nat) (h0 : 0 < map.length) :
    phase53 map (getSequence map) map.length
        (((getSequence map).length : Int) - 1)
      = ((List.range map.length).reverse.filter
           (fun k => decide (map.getD k 0 ≠ 0)
             && decide (¬ k ∈ getSequence map)),
         (List.range map.length).reverse.filter
           (fun k => decide (map.getD k 0 = 0))) := by
  obtain ⟨hcpos, hcval, hbound, hzero, hlenpos, hmax⟩ := getSequence_spec map h0
  have hp : (getSequence map).Pairwise (· < ·) :=
    List.chain'_iff_pairwise.mp hcpos
  have hcnt : (getSequence map).countP (fun k => decide (k < map.length))
      = (getSequence map).length := by
    rw [List.countP_eq_length]
    intro a ha
    simpa using hbound a ha
  have hmain := phase53_spec map (getSequence map) hp hzero map.length
  rw [hcnt] at hmain
  exact hmain

end LisModel

namespace LisModel

lemma revMap_getD (N i : Nat) (h : i < N) : (revMap N).getD i 0 = N - i := by
  unfold revMap
  have hlen : i < ((List.range N).map (fun k => N - k)).length := by
    rw [List.length_map, List.length_range]
    exact h
  rw [List.getD_eq_getElem _ _ hlen, List.getElem_map, List.getElem_range]

/-- Counterexample to the literal reading of claim C2: `getSequence`
does not always return the indices of a longest increasing subsequence
of its argument.  On `[5, 0, 1]` it returns `[2]` (length 1), although
the indices `[1, 2]` carry the strictly increasing values `0 < 1` — a
longer increasing subsequence of the array.  The zero entry is skipped
by design (`if (arrI !== 0)`), because a zero in
`newIndexToOldIndexMap` marks a node to mount, not a stable node. -/
theorem lis_move_minimality_cex :
    getSequence [5, 0, 1] = [2] ∧
    [1, 2].Chain' (· < ·) ∧
    (∀ k ∈ ([1, 2] : List Nat), k < ([5, 0, 1] : List Nat).length) ∧
    ([1, 2] : List Nat).Chain' (fun a b =>
      ([5, 0, 1] : List Nat).getD a 0 < ([5, 0, 1] : List Nat).getD b 0) ∧
    (getSequence [5, 0, 1]).length < ([1, 2] : List Nat).length := by
  refine ⟨by decide, ?_, by decide, ?_, by decide⟩
  · exact List.chain'_cons.mpr ⟨by decide, List.chain'_singleton 2⟩
  · exact List.chain'_cons.mpr ⟨by decide, List.chain'_singleton 2⟩

/--
Claim C2 (amended): in phase 5 of `patchKeyedChildren` with
`moved = true`, `getSequence newIndexToOldIndexMap` returns a strictly
increasing list of in-range positions whose mapped values are strictly
increasing, with value 0 possible only at position 0, and it is at
least as long as every strictly increasing chain of positions with
nonzero, strictly increasing values (the admissible stable chains of
the diff; the literal "LIS of the array" reading fails, see the
counterexample).  The 5.3 loop then, walking positions backward,
moves exactly the matched positions (nonzero map entry) outside the
returned sequence — each exactly once, inserted before its
already-placed next sibling — mounts exactly the zero-entry positions,
and never moves a position inside the sequence.  In particular,
reversing a fully keyed list of `N` items (map entry `N - i` at
position `i`) mounts nothing and moves at most `N` nodes.
-/
theorem lis_move_minimality (arr : List Nat) (h0 : 0 < arr.length) :
    ((getSequence arr).Chain' (· < ·) ∧
     (getSequence arr).Chain' (fun a b => arr.getD a 0 < arr.getD b 0) ∧
     (∀ k ∈ getSequence arr, k < arr.length) ∧
     (∀ k ∈ getSequence arr, arr.getD k 0 = 0 → k = 0)) ∧
    (∀ c : List Nat, c.Chain' (· < ·) →
       (∀ k ∈ c, k < arr.length ∧ arr.getD k 0 ≠ 0) →
       c.Chain' (fun a b => arr.getD a 0 < arr.getD b 0) →
       c.length ≤ (getSequence arr).length) ∧
    (phase53 arr (getSequence arr) arr.length
        (((getSequence arr).length : Int) - 1)
      = ((List.range arr.length).reverse.filter
           (fun k => decide (arr.getD k 0 ≠ 0)
             && decide (¬ k ∈ getSequence arr)),
         (List.range arr.length).reverse.filter
           (fun k => decide (arr.getD k 0 = 0)))) ∧
    (∀ N : Nat, 0 < N →
       (phase53 (revMap N) (getSequence (revMap N)) N
           (((getSequence (revMap N)).length : Int) - 1)).2 = [] ∧
       (phase53 (revMap N) (getSequence (revMap N)) N
           (((getSequence (revMap N)).length : Int) - 1)).1.length ≤ N) := by
  obtain ⟨hcpos, hcval, hbound, hzero, hlenpos, hmax⟩ := getSequence_spec arr h0
  refine ⟨⟨hcpos, hcval, hbound, hzero⟩, hmax,
    phase53_of_getSequence arr h0, ?_⟩
  intro N hN
  have hlenN : (revMap N).length = N := by
    rw [revMap, List.length_map, List.length_range]
  have h0N : 0 < (revMap N).length := by omega
  have hph := phase53_of_getSequence (revMap N) h0N
  rw [hlenN] at hph
  constructor
  · rw [hph]
    rw [List.filter_eq_nil_iff]
    intro a ha
    have haN : a < N := by
      rw [List.mem_reverse, List.mem_range] at ha
      exact ha
    have hval := revMap_getD N a haN
    rw [hval]
    simp
    omega
  · rw [hph]
    have hle := List.length_filter_le
      (fun k => decide ((revMap N).getD k 0 ≠ 0)
        && decide (¬ k ∈ getSequence (revMap N))) (List.range N).reverse
    rw [List.length_reverse, List.length_range] at hle
    exact hle

/-- Witness for C2 at `arr = [2, 1]` (a swapped pair):
`getSequence [2, 1] = [1]`, position 1 stays put, position 0 is moved,
nothing is mounted. -/
theorem lis_move_minimality_witness :
    0 < ([2, 1] : List Nat).length ∧
    (∀ k ∈ getSequence [2, 1], k < ([2, 1] : List Nat).length) ∧
    phase53 [2, 1] (getSequence [2, 1]) ([2, 1] : List Nat).length
        (((getSequence [2, 1]).length : Int) - 1)
      = ([0], []) := by
  have h := lis_move_minimality [2, 1] (by decide)
  refine ⟨by decide, h.1.2.2.1, ?_⟩
  rw [h.2.2.1]
  decide

end LisModel
